import Mathlib

/-!
# ATMega328P serial bootloader: record decoder, page accumulator, driver and
transport buffer

A shallow embedding of `bootloader.c` and of the transport buffer of `uart.c`.
Bytes and machine words are natural
numbers; every truncation that the C code performs on `uint8_t` and `uint16_t`
values is written out as `% 256` and `% 65536`.  On the AVR target `int`,
`unsigned int` and `size_t` are 16 bits wide, so arithmetic that mixes a
`uint16_t` with `sizeof` or with a promoted `uint8_t` wraps modulo `65536`.

Reads through a pointer return `Option`: `none` stands for a read outside the
object the pointer was derived from (undefined behaviour in C).
-/

namespace Bootloader

/-! ## Constants -/

/-- The constant `header_len` of the source: the number of characters of the
length, address, type and checksum fields of a record. -/
def header_len : Nat := 2 + 4 + 2 + 2

/-- The size in bytes of `struct hex_record`: `data_length[2]`, `address[4]`,
`record_type[2]` and `data[(32 + 2) * 2]`. -/
def sizeof_hex_record : Nat := 2 + 4 + 2 + (32 + 2) * 2

/-- Modelled from the spec: the constant `SPM_PAGESIZE` comes from the device
header `<avr/io.h>`, which is not among the sources; the page size of the
ATmega328P, 128 bytes, is used. -/
def SPM_PAGESIZE : Nat := 128

/-! ## Hex decoding -/

/-- The function `hex_to_uint4`: the value of one character.  The characters
are compared with `'0'..'9'` (48..57), `'A'..'Z'` (65..90) and `'a'..'z'`
(97..122), exactly as in the source. -/
def hex_to_uint4 (c : Nat) : Nat :=
  if 48 ≤ c ∧ c ≤ 57 then c - 48
  else if 65 ≤ c ∧ c ≤ 90 then c - 65 + 10
  else if 97 ≤ c ∧ c ≤ 122 then c - 97 + 10
  else 0

/-- The function `hex_to_uint8` on the two characters `c[0]`, `c[1]`: the
result of `hex_to_uint4(c[0]) << 4 | hex_to_uint4(c[1])` converted to
`uint8_t`. -/
def hex_to_uint8 (c0 c1 : Nat) : Nat :=
  ((hex_to_uint4 c0 <<< 4) ||| hex_to_uint4 c1) % 256

/-- The function `hex_to_uint16` on the four characters `c[0..3]`: the result of
`hex_to_uint8(c) << 8 | hex_to_uint8(c + 2)` converted to `uint16_t`. -/
def hex_to_uint16 (c0 c1 c2 c3 : Nat) : Nat :=
  ((hex_to_uint8 c0 c1 <<< 8) ||| hex_to_uint8 c2 c3) % 65536

/-- The call `hex_to_uint8(p + off)` for a pointer `p` to the start of the
object `mem`: both characters are read from `mem`. -/
def hex_to_uint8_at (mem : List Nat) (off : Nat) : Option Nat :=
  match mem[off]?, mem[off + 1]? with
  | some c0, some c1 => some (hex_to_uint8 c0 c1)
  | _, _ => none

/-- The call `hex_to_uint16(p + off)` for a pointer `p` to the start of the
object `mem`. -/
def hex_to_uint16_at (mem : List Nat) (off : Nat) : Option Nat :=
  match mem[off]?, mem[off + 1]?, mem[off + 2]?, mem[off + 3]? with
  | some c0, some c1, some c2, some c3 => some (hex_to_uint16 c0 c1 c2 c3)
  | _, _, _, _ => none

/-! ## Checksum verification -/

/-- The loop of `record_checksum_verify`: the value of `sum` after the
iterations `i = 0 .. n - 1`, each of which adds `hex_to_uint8(p + i*2)` to the
`uint8_t` accumulator. -/
def checksum_loop (p : List Nat) : Nat → Option Nat
  | 0 => some 0
  | n + 1 =>
    match checksum_loop p n, hex_to_uint8_at p (n * 2) with
    | some sum, some b => some ((sum + b) % 256)
    | _, _ => none

/-- The function `record_checksum_verify`: `record_length` is the `uint8_t`
value `header_len/2 + hex_to_uint8(record->data_length)`, and the result is
`sum == 0`. -/
def record_checksum_verify (record : List Nat) : Option Bool :=
  match hex_to_uint8_at record 0 with
  | none => none
  | some len =>
    let record_length := (header_len / 2 + len) % 256
    match checksum_loop record record_length with
    | none => none
    | some sum => some (sum == 0)

/-! ## Observable effects -/

/-- The calls by which the bootloader acts on the outside world: the serial
transmitter, the flow-control requests, the interrupt mask, the self-programming
primitives of `<avr/boot.h>` and the jump into the application.  A run of the
driver is observed as the list of these calls, in program order. -/
inductive Effect where
  | uart_putc (c : Nat)
  | uart_sendstr (s : String)
  | uart_sendhex16 (value : Nat)
  | uart_xoff
  | uart_xon
  | delay_ms (ms : Nat)
  | cli
  | sei
  | mcucr_write (ivce ivsel : Bool)
  | boot_page_erase (page : Nat)
  | boot_spm_busy_wait
  | boot_page_fill (addr word : Nat)
  | boot_page_write (page : Nat)
  | boot_rww_enable
  | jump (addr : Nat)
deriving DecidableEq

/-- The function `boot_app` (the write `TCCR1B = 0` is a state change, made by
the caller in the model): the diagnostic, `cli()`, the two writes that move the
interrupt vectors back, and the jump to address 0. -/
def boot_app : List Effect :=
  [Effect.uart_sendstr "Booting app\n", Effect.cli,
   Effect.mcucr_write true false, Effect.mcucr_write false false, Effect.jump 0]

/-- The function `program_page`.  The fill loop runs for `i = 0, 2, .., 126`
(here `i = 2 * n`); its address argument is the 16-bit sum `page + i` and its
word is `data[i] | data[i + 1] << 8`.  The argument `data` is always the
128-byte `page_buffer` of `main`. -/
def program_page (page : Nat) (data : List Nat) : List Effect :=
  [Effect.uart_sendstr "Programming page ", Effect.uart_sendhex16 page, Effect.uart_putc 10,
   Effect.uart_xoff, Effect.delay_ms 1, Effect.cli,
   Effect.boot_page_erase page, Effect.boot_spm_busy_wait]
  ++ (List.range (SPM_PAGESIZE / 2)).map (fun n =>
        Effect.boot_page_fill ((page + 2 * n) % 65536)
          ((data.getD (2 * n) 0 ||| (data.getD (2 * n + 1) 0 <<< 8)) % 65536))
  ++ [Effect.boot_page_write page, Effect.boot_spm_busy_wait, Effect.boot_rww_enable,
      Effect.sei, Effect.uart_xon]

/-! ## Page accumulator -/

/-- The three local variables of `main` that make up the page accumulator. -/
structure PageAcc where
  page_buffer_start_set : Nat
  page_buffer_start : Nat
  page_buffer : List Nat
deriving DecidableEq

/-- The accumulator as `main` initialises it when it enters programming mode:
no page active, every byte of `page_buffer` equal to `0xFF`. -/
def PageAcc.fresh : PageAcc :=
  { page_buffer_start_set := 0, page_buffer_start := 0,
    page_buffer := List.replicate SPM_PAGESIZE 255 }

/-- One iteration of the data loop of `main` once `byteAddr` and the decoded
byte are known: the range test (with the 16-bit sum
`page_buffer_start + sizeof(page_buffer)`), the commit and reset, the `uint8_t`
offset and the store.  A store outside `page_buffer` gives `none`. -/
def store_byte (acc : PageAcc) (byteAddr value : Nat) : Option (PageAcc × List Effect) :=
  let flush : Bool :=
    decide ((acc.page_buffer_start + SPM_PAGESIZE) % 65536 ≤ byteAddr)
      || decide (byteAddr < acc.page_buffer_start)
  let acc1 : PageAcc :=
    if flush then
      { acc with page_buffer := List.replicate SPM_PAGESIZE 255,
                 page_buffer_start := byteAddr - byteAddr % SPM_PAGESIZE }
    else acc
  let out : List Effect :=
    if flush then program_page acc.page_buffer_start acc.page_buffer else []
  let offset := (byteAddr + 65536 - acc1.page_buffer_start) % 65536 % 256
  if offset < SPM_PAGESIZE then
    some ({ acc1 with page_buffer := acc1.page_buffer.set offset value }, out)
  else none

/-- The data loop of `main`: the accumulator and the effects after the
iterations `i = 0 .. n - 1`.  Iteration `i` reads `record.data + i*2`, that is
offset `8 + i*2` of the record, and handles the 16-bit address
`recordAddr + i`. -/
def data_loop (record : List Nat) (recordAddr : Nat) (acc0 : PageAcc) :
    Nat → Option (PageAcc × List Effect)
  | 0 => some (acc0, [])
  | n + 1 =>
    match data_loop record recordAddr acc0 n with
    | none => none
    | some (acc, out) =>
      match hex_to_uint8_at record (8 + n * 2) with
      | none => none
      | some value =>
        match store_byte acc ((recordAddr + n) % 65536) value with
        | none => none
        | some (acc1, out1) => some (acc1, out ++ out1)

/-- The statement `if (!page_buffer_start_set) { .. }` at the head of the branch
`case '0'` of `main`: when no page is active, one is activated at the page
that holds `recordAddr`. -/
def activate_page (acc : PageAcc) (recordAddr : Nat) : PageAcc :=
  if acc.page_buffer_start_set = 0 then
    { acc with page_buffer_start_set := 1,
               page_buffer_start := recordAddr - recordAddr % SPM_PAGESIZE }
  else acc

/-- The branch `case '0'` of `main`: decode the address, activate a page if none
is active, then run the data loop `dataLength` times. -/
def data_record (acc : PageAcc) (record : List Nat) : Option (PageAcc × List Effect) :=
  match hex_to_uint16_at record 2, hex_to_uint8_at record 0 with
  | some recordAddr, some dataLength =>
    data_loop record recordAddr (activate_page acc recordAddr) dataLength
  | _, _ => none

/-- The branch `case '0'` taken for each record of a list in turn, as the main
loop does for a run of data records: the final accumulator and all effects. -/
def data_records (acc : PageAcc) : List (List Nat) → Option (PageAcc × List Effect)
  | [] => some (acc, [])
  | r :: rs =>
    match data_record acc r with
    | none => none
    | some (acc1, out1) =>
      match data_records acc1 rs with
      | none => none
      | some (acc2, out2) => some (acc2, out1 ++ out2)

/-- The branch `case '1'` of `main`: commit the active page, if any, then
`boot_app()`. -/
def eof_record (acc : PageAcc) : List Effect :=
  (if acc.page_buffer_start_set ≠ 0 then program_page acc.page_buffer_start acc.page_buffer
   else [])
  ++ boot_app

/-! ## Driver -/

/-- Where the program counter of `main` is between two reads of the transport:
in the trigger loop, in the loop that waits for `':'`, in the loop that fills
the record, or gone (control was given to the application).  `Undefined` is
entered when the C program would read outside an object. -/
inductive Phase where
  | AwaitingTrigger
  | AwaitColon
  | ReadRecord
  | Booted
  | Undefined
deriving DecidableEq

/-- The state of the driver: the phase, the timer control register `TCCR1B`
(the timer counts while it is non-zero), the page accumulator, the 76 bytes of
`struct hex_record record` and the counter `data_read`. -/
structure State where
  phase : Phase
  TCCR1B : Nat
  acc : PageAcc
  record : List Nat
  data_read : Nat
deriving DecidableEq

/-- What the driver reacts to: `rx c` is a call `uart_read(.., 1)` that returns 1
and delivers the byte `c`; `idle` is such a call that returns 0; `timer` is the
compare-match interrupt `TIMER1_COMPA_vect`. -/
inductive Input where
  | rx (c : Nat)
  | idle
  | timer
deriving DecidableEq

/-- The statements of `main` from `record_checksum_verify` to the end of the
`switch`, run once the record has been read.  The `switch` looks at
`record.record_type[1]`, byte 7 of the record, and compares it with `'1'` (49)
and `'0'` (48).  When a read leaves the record the behaviour is undefined and
no effect is promised. -/
def process_record (s : State) : State × List Effect :=
  match record_checksum_verify s.record with
  | none => ({ s with phase := Phase.Undefined }, [])
  | some false =>
    ({ s with phase := Phase.AwaitColon },
     [Effect.uart_sendstr "Checksum verification failed\n"])
  | some true =>
    match s.record[7]? with
    | none => ({ s with phase := Phase.Undefined }, [])
    | some t =>
      if t = 49 then
        ({ s with phase := Phase.Booted, TCCR1B := 0 }, eof_record s.acc)
      else if t = 48 then
        match data_record s.acc s.record with
        | none => ({ s with phase := Phase.Undefined }, [])
        | some (acc1, out) => ({ s with phase := Phase.AwaitColon, acc := acc1 }, out)
      else ({ s with phase := Phase.AwaitColon }, [])

/-- The condition of the loop that fills the record:
`data_read < sizeof(struct hex_record) && (data_read < header_len ||
2 * hex_to_uint8(record.data_length) + header_len != data_read)`. -/
def read_more (record : List Nat) (data_read : Nat) : Option Bool :=
  if data_read < sizeof_hex_record then
    if data_read < header_len then some true
    else
      match hex_to_uint8_at record 0 with
      | none => none
      | some len => some (decide (2 * len + header_len ≠ data_read))
  else some false

/-- One reaction of the driver.  A read that returns 0 changes nothing in any
of the three loops.  The timer interrupt can only occur while the timer
counts.  In `ReadRecord` the byte is stored at `record + data_read`, the
counter is incremented and the loop condition is tested again; when it fails
the record is processed.  The trigger byte `'p'` is 112 and the start marker
`':'` is 58.  On entry to the record loop `data_read` is 0, for which the loop
condition holds, so the first test that matters is the one after a byte. -/
def step (s : State) : Input → State × List Effect
  | Input.idle => (s, [])
  | Input.timer =>
    if s.TCCR1B ≠ 0 then ({ s with phase := Phase.Booted, TCCR1B := 0 }, boot_app)
    else (s, [])
  | Input.rx c =>
    match s.phase with
    | Phase.AwaitingTrigger =>
      if c = 112 then
        ({ s with phase := Phase.AwaitColon, TCCR1B := 0, acc := PageAcc.fresh },
         [Effect.uart_sendstr "Entering programming mode\n"])
      else (s, [])
    | Phase.AwaitColon =>
      if c = 58 then ({ s with phase := Phase.ReadRecord, data_read := 0 }, [])
      else (s, [])
    | Phase.ReadRecord =>
      if s.data_read < s.record.length then
        let s1 : State :=
          { s with record := s.record.set s.data_read c,
                   data_read := (s.data_read + 1) % 256 }
        match read_more s1.record s1.data_read with
        | none => ({ s1 with phase := Phase.Undefined }, [])
        | some true => (s1, [])
        | some false => process_record s1
      else ({ s with phase := Phase.Undefined }, [])
    | Phase.Booted => (s, [])
    | Phase.Undefined => (s, [])

/-- The driver on a sequence of inputs: the final state and all effects. -/
def run (s : State) : List Input → State × List Effect
  | [] => (s, [])
  | x :: xs => ((run (step s x).1 xs).1, (step s x).2 ++ (run (step s x).1 xs).2)

/-- The state in which `main` enters the trigger loop: the timer counts
(`TCCR1B = _BV(CS12) | _BV(CS10)`), and `stack` is whatever the memory of the
not yet initialised `record` holds. -/
def main_init (stack : List Nat) : State :=
  { phase := Phase.AwaitingTrigger, TCCR1B := 5, acc := PageAcc.fresh,
    record := stack, data_read := 0 }

/-- The statements of `main` before the trigger loop, `uart_init` included. -/
def main_prelude : List Effect :=
  [Effect.mcucr_write true false, Effect.mcucr_write false true,
   Effect.uart_putc 17, Effect.uart_sendstr "\n\n\n\n",
   Effect.uart_sendstr "Press p to program\n", Effect.sei]

/-- The bytes that the reads of a sequence of inputs deliver, in order. -/
def bytes_of : List Input → List Nat
  | [] => []
  | Input.rx c :: xs => c :: bytes_of xs
  | _ :: xs => bytes_of xs

/-- The function `main` on a sequence of inputs. -/
def main (stack : List Nat) (inp : List Input) : State × List Effect :=
  ((run (main_init stack) inp).1, main_prelude ++ (run (main_init stack) inp).2)

/-! ## Wire format

The record format as the specification describes it, stated on its own so that
the decoders of the program can be compared with it. -/

/-- Whether the character `c` is a hex digit of value `v`: `'0'..'9'`, or a
letter `'A'..'F'` or `'a'..'f'`. -/
def is_hex_digit (c v : Nat) : Bool :=
  (decide (v < 10) && decide (c = 48 + v))
    || (decide (10 ≤ v) && decide (v < 16) && (decide (c = 55 + v) || decide (c = 87 + v)))

/-- Whether the characters `cs` spell the bytes `bs`, two hex digits per byte,
high nibble first, letters in either case. -/
def encodes : List Nat → List Nat → Bool
  | [], [] => true
  | c0 :: c1 :: cs, b :: bs => is_hex_digit c0 (b / 16) && is_hex_digit c1 (b % 16) && encodes cs bs
  | _, _ => false

/-- The bytes of a record in the wire format: length, address high byte,
address low byte, type, the data, and the checksum, which is the two's
complement of the sum of the bytes before it. -/
def wire_bytes (addr typ : Nat) (data : List Nat) : List Nat :=
  [data.length, addr / 256, addr % 256, typ] ++ data
    ++ [(256 - ([data.length, addr / 256, addr % 256, typ] ++ data).sum % 256) % 256]

/-- Whether the 76-byte buffer `record` starts with the characters of the wire
record with the given address, type and data (what follows them in the buffer
is free). -/
def is_wire_record (record : List Nat) (addr typ : Nat) (data : List Nat) : Bool :=
  decide (record.length = sizeof_hex_record)
    && encodes (record.take (2 * (data.length + 5))) (wire_bytes addr typ data)

/-- The first `n` bytes of a record buffer, each decoded from its two
characters by `hex_to_uint8`. -/
def decoded_bytes (record : List Nat) (n : Nat) : List Nat :=
  (List.range n).map (fun i => hex_to_uint8 (record.getD (2 * i) 0) (record.getD (2 * i + 1) 0))

/-- The upper-case hex digit of a nibble. -/
def hex_char (v : Nat) : Nat :=
  if v < 10 then 48 + v else 55 + v

/-- The characters of a list of bytes, two upper-case hex digits per byte. -/
def encode_bytes : List Nat → List Nat
  | [] => []
  | b :: bs => hex_char (b / 16) :: hex_char (b % 16) :: encode_bytes bs

/-- A 76-byte record buffer that holds the upper-case wire record with the
given address, type and data, followed by zero bytes. -/
def record_buffer (addr typ : Nat) (data : List Nat) : List Nat :=
  encode_bytes (wire_bytes addr typ data)
    ++ List.replicate (sizeof_hex_record - (encode_bytes (wire_bytes addr typ data)).length) 0

/-! ## Transport buffer

A shallow embedding of `uart.c`: the ring buffer that the receive interrupt
fills and `uart_read` drains, with its XON/XOFF flow control.  Every function
returns the new state together with the bytes it hands to `uart_putc`.
Interrupt handlers and `uart_read` (which runs with interrupts masked) are
atomic with respect to each other, so a run is a sequence of whole calls. -/

/-- The macro `XOFF`. -/
def XOFF : Nat := 0x13

/-- The macro `XON`. -/
def XON : Nat := 0x11

/-- The value of `ARRSIZE(uart_buffer)` for `uart_buffer[128]`. -/
def ARRSIZE_uart_buffer : Nat := 128

/-- The macro `MIN(x, y)`, `((x) < (y) ? (x) : (y))`. -/
def MIN (x y : Nat) : Nat := if x < y then x else y

/-- The static variables of `uart.c`. -/
structure Uart where
  uart_buffer : List Nat
  uart_buffer_count : Nat
  uart_buffer_read_pos : Nat
  uart_buffer_write_pos : Nat
  uart_rx_enabled : Nat
deriving DecidableEq

/-- The function `uart_init` as far as the buffer goes: the cursors and the
count are cleared, the accepting flag is set, and `XON` and four line feeds
are sent.  The content of `uart_buffer` is left as it is. -/
def uart_init (u : Uart) : Uart × List Nat :=
  ({ u with uart_buffer_read_pos := 0, uart_buffer_write_pos := 0,
            uart_buffer_count := 0, uart_rx_enabled := 1 },
   [XON, 10, 10, 10, 10])

/-- The function `uart_must_stop_rx`. -/
def uart_must_stop_rx (u : Uart) : Bool :=
  decide (u.uart_buffer_count > ARRSIZE_uart_buffer - 32)

/-- The function `uart_can_start_rx`. -/
def uart_can_start_rx (u : Uart) : Bool :=
  decide (u.uart_buffer_count < ARRSIZE_uart_buffer - 4)

/-- The function `uart_xon`. -/
def uart_xon (u : Uart) : Uart × List Nat :=
  if u.uart_rx_enabled ≠ 0 ∨ uart_can_start_rx u = false then (u, [])
  else ({ u with uart_rx_enabled := 1 }, [XON])

/-- The function `uart_xoff`. -/
def uart_xoff (u : Uart) : Uart × List Nat :=
  if u.uart_rx_enabled = 0 then (u, [])
  else ({ u with uart_rx_enabled := 0 }, [XOFF])

/-- The receive interrupt `ISR(USART_RX_vect)` for the received byte `rx`. -/
def USART_RX_vect (u : Uart) (rx : Nat) : Uart × List Nat :=
  if u.uart_buffer_count ≥ ARRSIZE_uart_buffer then (u, [])
  else
    let u1 : Uart :=
      { u with uart_buffer := u.uart_buffer.set u.uart_buffer_write_pos rx,
               uart_buffer_write_pos := (u.uart_buffer_write_pos + 1) % ARRSIZE_uart_buffer,
               uart_buffer_count := (u.uart_buffer_count + 1) % 256 }
    if uart_must_stop_rx u1 then uart_xoff u1 else (u1, [])

/-- The copy loop of `uart_read`: the state and the bytes written to
`buf[0 .. n - 1]` after `n` iterations. -/
def uart_read_loop (u : Uart) : Nat → Uart × List Nat
  | 0 => (u, [])
  | n + 1 =>
    ({ (uart_read_loop u n).1 with
        uart_buffer_read_pos :=
          ((uart_read_loop u n).1.uart_buffer_read_pos + 1) % ARRSIZE_uart_buffer },
     (uart_read_loop u n).2
       ++ [(uart_read_loop u n).1.uart_buffer.getD (uart_read_loop u n).1.uart_buffer_read_pos 0])

/-- The function `uart_read`: the new state, the bytes written to `buf` (their
number is the return value `toRead`) and the bytes sent.  The count is
decremented in `uint8_t` arithmetic. -/
def uart_read (u : Uart) (bufsiz : Nat) : Uart × List Nat × List Nat :=
  let toRead := MIN bufsiz u.uart_buffer_count
  let u1 : Uart :=
    { (uart_read_loop u toRead).1 with
        uart_buffer_count := (u.uart_buffer_count + 256 - toRead) % 256 }
  ((uart_xon u1).1, (uart_read_loop u toRead).2, (uart_xon u1).2)

/-- The calls that act on the transport buffer: the receive interrupt,
`uart_read`, and the calls of `uart_xon` and `uart_xoff` that `program_page`
makes. -/
inductive UartOp where
  | enqueue (rx : Nat)
  | read (bufsiz : Nat)
  | xon
  | xoff
deriving DecidableEq

/-- What one call gives back: the bytes handed to the caller (only `uart_read`
hands any) and the bytes sent. -/
structure UartOut where
  data : List Nat
  tx : List Nat
deriving DecidableEq

/-- One call on the transport buffer. -/
def uart_step (u : Uart) : UartOp → Uart × UartOut
  | UartOp.enqueue rx => ((USART_RX_vect u rx).1, ⟨[], (USART_RX_vect u rx).2⟩)
  | UartOp.read bufsiz => ((uart_read u bufsiz).1, ⟨(uart_read u bufsiz).2.1, (uart_read u bufsiz).2.2⟩)
  | UartOp.xon => ((uart_xon u).1, ⟨[], (uart_xon u).2⟩)
  | UartOp.xoff => ((uart_xoff u).1, ⟨[], (uart_xoff u).2⟩)

/-- A sequence of calls on the transport buffer: the final state and what each
call gave back. -/
def uart_run (u : Uart) : List UartOp → Uart × List UartOut
  | [] => (u, [])
  | op :: ops => ((uart_run (uart_step u op).1 ops).1,
                  (uart_step u op).2 :: (uart_run (uart_step u op).1 ops).2)

/-- The bytes queued in the ring buffer, oldest first: `uart_buffer_count`
bytes from the read cursor on, wrapping at the end of the array. -/
def queued (u : Uart) : List Nat :=
  (List.range u.uart_buffer_count).map
    (fun i => u.uart_buffer.getD ((u.uart_buffer_read_pos + i) % ARRSIZE_uart_buffer) 0)

/-- Whether no receive interrupt of the run finds the buffer full. -/
def never_full (u : Uart) : List UartOp → Bool
  | [] => true
  | UartOp.enqueue rx :: ops =>
    decide (u.uart_buffer_count < ARRSIZE_uart_buffer)
      && never_full (uart_step u (UartOp.enqueue rx)).1 ops
  | op :: ops => never_full (uart_step u op).1 ops

/-- The bytes that the receive interrupts of a run received, in arrival
order. -/
def enqueued : List UartOp → List Nat
  | [] => []
  | UartOp.enqueue rx :: ops => rx :: enqueued ops
  | _ :: ops => enqueued ops

/-- The abstract queue of the specification, of capacity 128: a receive
appends one byte if there is room, a read of at most `n` bytes takes them from
the front; the result is the new queue and the bytes handed out. -/
def fifo_step (q : List Nat) : UartOp → List Nat × List Nat
  | UartOp.enqueue rx => (if q.length < 128 then q ++ [rx] else q, [])
  | UartOp.read bufsiz => (q.drop bufsiz, q.take bufsiz)
  | _ => (q, [])

/-- The abstract queue on a sequence of calls: the final queue and the bytes
each call handed out. -/
def fifo_run (q : List Nat) : List UartOp → List Nat × List (List Nat)
  | [] => (q, [])
  | op :: ops => ((fifo_run (fifo_step q op).1 ops).1,
                  (fifo_step q op).2 :: (fifo_run (fifo_step q op).1 ops).2)

/-- The invariant of the transport buffer: the array has its 128 slots, the
count is at most 128, both cursors are valid slots, the write cursor is the
read cursor advanced by the count, and while the accepting flag is set fewer
than 124 bytes are queued. -/
def ring_ok (u : Uart) : Prop :=
  u.uart_buffer.length = 128 ∧ u.uart_buffer_count ≤ 128
    ∧ u.uart_buffer_read_pos < 128 ∧ u.uart_buffer_write_pos < 128
    ∧ u.uart_buffer_write_pos = (u.uart_buffer_read_pos + u.uart_buffer_count) % 128
    ∧ (u.uart_rx_enabled ≠ 0 → u.uart_buffer_count < 124)

instance (u : Uart) : Decidable (ring_ok u) := by
  unfold ring_ok
  infer_instance

/-! ## Lemmas -/

/-! ### Decoding and the wire format -/

theorem hex_to_uint8_at_eq (mem : List Nat) (off : Nat) (h : off + 1 < mem.length) :
    hex_to_uint8_at mem off = some (hex_to_uint8 (mem.getD off 0) (mem.getD (off + 1) 0)) := by
  have h0 : off < mem.length := by omega
  simp [hex_to_uint8_at, List.getD, List.getElem?_eq_getElem, h, h0]

theorem checksum_loop_eq (p : List Nat) (n : Nat) (h : 2 * n ≤ p.length) :
    checksum_loop p n = some ((decoded_bytes p n).sum % 256) := by
  induction n with
  | zero => simp [checksum_loop, decoded_bytes]
  | succ n ih =>
    have h1 : n * 2 + 1 < p.length := by omega
    rw [checksum_loop, ih (by omega), hex_to_uint8_at_eq p (n * 2) h1]
    simp only [decoded_bytes, List.range_succ, List.map_append, List.sum_append, List.map_cons,
      List.map_nil, List.sum_cons, List.sum_nil, Nat.add_zero]
    rw [Nat.mul_comm n 2]
    simp [Nat.add_mod]

theorem hex_to_uint4_digit (c v : Nat) (h : is_hex_digit c v = true) : hex_to_uint4 c = v := by
  simp only [is_hex_digit, Bool.or_eq_true, Bool.and_eq_true, decide_eq_true_eq] at h
  unfold hex_to_uint4
  split_ifs <;> omega

theorem is_hex_digit_lt (c v : Nat) (h : is_hex_digit c v = true) : v < 16 := by
  simp only [is_hex_digit, Bool.or_eq_true, Bool.and_eq_true, decide_eq_true_eq] at h
  omega

theorem shl4_or (hi lo : Nat) (h1 : hi < 16) (h2 : lo < 16) :
    ((hi <<< 4) ||| lo) % 256 = hi * 16 + lo := by
  rw [Nat.shiftLeft_eq, Nat.mul_comm, ← Nat.mul_add_lt_is_or (by simpa using h2)]
  omega

theorem shl8_or (hi lo : Nat) (h1 : hi < 256) (h2 : lo < 256) :
    ((hi <<< 8) ||| lo) % 65536 = hi * 256 + lo := by
  rw [Nat.shiftLeft_eq, Nat.mul_comm, ← Nat.mul_add_lt_is_or (by simpa using h2)]
  omega

theorem hex_to_uint8_digits (c0 c1 b : Nat) (h0 : is_hex_digit c0 (b / 16) = true)
    (h1 : is_hex_digit c1 (b % 16) = true) : hex_to_uint8 c0 c1 = b := by
  have := is_hex_digit_lt _ _ h0
  rw [hex_to_uint8, hex_to_uint4_digit _ _ h0, hex_to_uint4_digit _ _ h1,
    shl4_or _ _ this (Nat.mod_lt _ (by omega))]
  omega

theorem hex_to_uint8_lt (c0 c1 : Nat) : hex_to_uint8 c0 c1 < 256 :=
  Nat.mod_lt _ (by omega)

theorem decoded_bytes_cons (c0 c1 : Nat) (cs : List Nat) (n : Nat) :
    decoded_bytes (c0 :: c1 :: cs) (n + 1) = hex_to_uint8 c0 c1 :: decoded_bytes cs n := by
  simp only [decoded_bytes, List.range_succ_eq_map, List.map_cons, List.map_map]
  congr 1

theorem encodes_decoded (cs bs : List Nat) (h : encodes cs bs = true) :
    cs.length = 2 * bs.length ∧ decoded_bytes cs bs.length = bs := by
  induction bs generalizing cs with
  | nil =>
    cases cs with
    | nil => simp [decoded_bytes]
    | cons c cs => cases cs <;> simp [encodes] at h
  | cons b bs ih =>
    match cs, h with
    | c0 :: c1 :: cs, h =>
      simp only [encodes, Bool.and_eq_true] at h
      obtain ⟨⟨h0, h1⟩, h2⟩ := h
      obtain ⟨ihl, ihd⟩ := ih cs h2
      refine ⟨by simp [ihl]; omega, ?_⟩
      rw [List.length_cons, decoded_bytes_cons, ihd, hex_to_uint8_digits c0 c1 b h0 h1]

theorem decoded_bytes_take (record : List Nat) (n k : Nat) (h : 2 * n ≤ k) :
    decoded_bytes (record.take k) n = decoded_bytes record n := by
  apply List.map_congr_left
  intro i hi
  have hi2 : i < n := List.mem_range.mp hi
  simp only [List.getD_eq_getElem?_getD]
  rw [List.getElem?_take_of_lt (by omega), List.getElem?_take_of_lt (by omega)]

theorem decoded_bytes_length (record : List Nat) (n : Nat) : (decoded_bytes record n).length = n := by
  simp [decoded_bytes]

theorem decoded_bytes_getElem? (record : List Nat) (n i : Nat) (h : i < n) :
    (decoded_bytes record n)[i]? =
      some (hex_to_uint8 (record.getD (2 * i) 0) (record.getD (2 * i + 1) 0)) := by
  simp [decoded_bytes, List.getElem?_map, List.getElem?_range h]

theorem wire_bytes_length (addr typ : Nat) (data : List Nat) :
    (wire_bytes addr typ data).length = data.length + 5 := by
  simp [wire_bytes]

theorem wire_bytes_sum (addr typ : Nat) (data : List Nat) :
    (wire_bytes addr typ data).sum % 256 = 0 := by
  simp only [wire_bytes, List.sum_append, List.sum_cons, List.sum_nil]
  omega

/-- What a wire record gives: its decoded bytes are the wire bytes. -/
theorem wire_record_decoded (record : List Nat) (addr typ : Nat) (data : List Nat)
    (h : is_wire_record record addr typ data = true) :
    record.length = 76 ∧ decoded_bytes record (data.length + 5) = wire_bytes addr typ data := by
  simp only [is_wire_record, Bool.and_eq_true, decide_eq_true_eq] at h
  obtain ⟨hl, he⟩ := h
  have := (encodes_decoded _ _ he).2
  rw [wire_bytes_length, decoded_bytes_take _ _ _ (le_refl _)] at this
  exact ⟨hl, this⟩

theorem encodes_get (cs bs : List Nat) (h : encodes cs bs = true) (i : Nat) (hi : i < bs.length) :
    is_hex_digit (cs.getD (2 * i) 0) (bs.getD i 0 / 16) = true
      ∧ is_hex_digit (cs.getD (2 * i + 1) 0) (bs.getD i 0 % 16) = true := by
  induction bs generalizing cs i with
  | nil => simp at hi
  | cons b bs ih =>
    match cs, h with
    | c0 :: c1 :: cs, h =>
      simp only [encodes, Bool.and_eq_true] at h
      obtain ⟨⟨h0, h1⟩, h2⟩ := h
      cases i with
      | zero => exact ⟨by simpa using h0, by simpa using h1⟩
      | succ i =>
        have e1 : 2 * (i + 1) = (2 * i) + 1 + 1 := by omega
        have e2 : 2 * (i + 1) + 1 = (2 * i + 1) + 1 + 1 := by omega
        simp only [e1, e2, List.getD_cons_succ]
        exact ih cs h2 i (by simpa using hi)

theorem getD_take (l : List Nat) (k j : Nat) (h : j < k) : (l.take k).getD j 0 = l.getD j 0 := by
  simp only [List.getD_eq_getElem?_getD]
  rw [List.getElem?_take_of_lt h]

theorem getElem?_eq_getD (l : List Nat) (j : Nat) (h : j < l.length) : l[j]? = some (l.getD j 0) := by
  simp [List.getD_eq_getElem?_getD, List.getElem?_eq_getElem h]

/-- In a wire record the two characters of byte `i` are hex digits of the
nibbles of the `i`-th wire byte. -/
theorem wire_record_get (record : List Nat) (addr typ : Nat) (data : List Nat)
    (h : is_wire_record record addr typ data = true) (i : Nat) (hi : i < data.length + 5) :
    is_hex_digit (record.getD (2 * i) 0) ((wire_bytes addr typ data).getD i 0 / 16) = true
      ∧ is_hex_digit (record.getD (2 * i + 1) 0) ((wire_bytes addr typ data).getD i 0 % 16) = true := by
  simp only [is_wire_record, Bool.and_eq_true, decide_eq_true_eq] at h
  have := encodes_get _ _ h.2 i (by rw [wire_bytes_length]; exact hi)
  rwa [getD_take _ _ _ (by omega), getD_take _ _ _ (by omega)] at this

theorem wire_record_byte (record : List Nat) (addr typ : Nat) (data : List Nat)
    (h : is_wire_record record addr typ data = true) (hd : data.length ≤ 33)
    (i : Nat) (hi : i < data.length + 5) :
    hex_to_uint8_at record (2 * i) = some ((wire_bytes addr typ data).getD i 0) := by
  have hl : record.length = 76 := by
    simp only [is_wire_record, Bool.and_eq_true, decide_eq_true_eq] at h
    exact h.1
  obtain ⟨h0, h1⟩ := wire_record_get record addr typ data h i hi
  rw [hex_to_uint8_at_eq record (2 * i) (by omega), hex_to_uint8_digits _ _ _ h0 h1]

theorem wire_record_length (record : List Nat) (addr typ : Nat) (data : List Nat)
    (h : is_wire_record record addr typ data = true) : record.length = 76 := by
  simp only [is_wire_record, Bool.and_eq_true, decide_eq_true_eq] at h
  exact h.1

theorem wire_bytes_data (addr typ : Nat) (data : List Nat) (i : Nat) (hi : i < data.length) :
    (wire_bytes addr typ data).getD (i + 4) 0 = data.getD i 0 := by
  simp only [wire_bytes, List.cons_append, List.nil_append, List.getD_cons_succ]
  rw [List.getD_append _ _ _ _ hi]

theorem hex_to_uint16_at_eq (mem : List Nat) (off : Nat) (h : off + 3 < mem.length) :
    hex_to_uint16_at mem off =
      some (hex_to_uint16 (mem.getD off 0) (mem.getD (off + 1) 0)
        (mem.getD (off + 2) 0) (mem.getD (off + 3) 0)) := by
  rw [hex_to_uint16_at, getElem?_eq_getD mem off (by omega),
    getElem?_eq_getD mem (off + 1) (by omega), getElem?_eq_getD mem (off + 2) (by omega),
    getElem?_eq_getD mem (off + 3) (by omega)]

theorem wire_record_data_length (record : List Nat) (addr typ : Nat) (data : List Nat)
    (h : is_wire_record record addr typ data = true) (hd : data.length ≤ 33) :
    hex_to_uint8_at record 0 = some data.length := by
  have := wire_record_byte record addr typ data h hd 0 (by omega)
  simpa [wire_bytes] using this

theorem wire_record_type (record : List Nat) (addr typ : Nat) (data : List Nat)
    (h : is_wire_record record addr typ data = true) (hd : data.length ≤ 33) :
    hex_to_uint8_at record 6 = some typ := by
  have := wire_record_byte record addr typ data h hd 3 (by omega)
  simpa [wire_bytes] using this

theorem wire_record_address (record : List Nat) (addr typ : Nat) (data : List Nat)
    (h : is_wire_record record addr typ data = true) (ha : addr < 65536) :
    hex_to_uint16_at record 2 = some addr := by
  have hl := wire_record_length record addr typ data h
  obtain ⟨h0, h1⟩ := wire_record_get record addr typ data h 1 (by omega)
  obtain ⟨h2, h3⟩ := wire_record_get record addr typ data h 2 (by omega)
  have e1 : (wire_bytes addr typ data).getD 1 0 = addr / 256 := by simp [wire_bytes]
  have e2 : (wire_bytes addr typ data).getD 2 0 = addr % 256 := by simp [wire_bytes]
  rw [e1] at h0 h1
  rw [e2] at h2 h3
  rw [hex_to_uint16_at_eq record 2 (by omega), hex_to_uint16,
    hex_to_uint8_digits _ _ _ h0 h1, hex_to_uint8_digits _ _ _ h2 h3,
    shl8_or _ _ (by omega) (by omega)]
  congr 1
  omega

theorem wire_record_data (record : List Nat) (addr typ : Nat) (data : List Nat)
    (h : is_wire_record record addr typ data = true) (hd : data.length ≤ 33)
    (i : Nat) (hi : i < data.length) :
    hex_to_uint8_at record (8 + i * 2) = some (data.getD i 0) := by
  have := wire_record_byte record addr typ data h hd (i + 4) (by omega)
  rw [wire_bytes_data addr typ data i hi] at this
  rw [← this]
  congr 1
  omega

theorem wire_record_checksum (record : List Nat) (addr typ : Nat) (data : List Nat)
    (h : is_wire_record record addr typ data = true) (hd : data.length ≤ 33) :
    record_checksum_verify record = some true := by
  have hl := wire_record_length record addr typ data h
  rw [record_checksum_verify, wire_record_data_length record addr typ data h hd]
  have hrl : (header_len / 2 + data.length) % 256 = data.length + 5 := by
    simp only [header_len]; omega
  simp only [hrl]
  rw [checksum_loop_eq record _ (by omega), (wire_record_decoded record addr typ data h).2,
    wire_bytes_sum]
  rfl

/-- The second type character of a wire record is the digit of the low nibble
of the type. -/
theorem wire_record_type_char (record : List Nat) (addr typ : Nat) (data : List Nat)
    (h : is_wire_record record addr typ data = true) :
    is_hex_digit (record.getD 7 0) (typ % 16) = true := by
  have := (wire_record_get record addr typ data h 3 (by omega)).2
  simpa [wire_bytes] using this

/-! ### The loop that reads a record -/

theorem run_append (s : State) (a b : List Input) :
    run s (a ++ b) = ((run (run s a).1 b).1, (run s a).2 ++ (run (run s a).1 b).2) := by
  induction a generalizing s with
  | nil => simp [run]
  | cons x xs ih => simp [run, ih, List.append_assoc]

theorem set_take_drop (full r0 : List Nat) (k : Nat) (h1 : k < full.length) (h2 : k < r0.length) :
    (full.take k ++ r0.drop k).set k (full.getD k 0) = full.take (k + 1) ++ r0.drop (k + 1) := by
  apply List.ext_getElem?
  intro i
  rw [List.getElem?_set]
  simp only [List.getElem?_append, List.length_take, List.getElem?_take, List.getElem?_drop,
    List.length_append, List.length_drop]
  have hk : min k full.length = k := by omega
  have hk1 : min (k + 1) full.length = k + 1 := by omega
  simp only [hk, hk1]
  by_cases hi : k = i
  · subst hi
    have e := getElem?_eq_getD full k h1
    rw [if_pos rfl, if_pos (by omega), if_pos (by omega), if_pos (by omega), e]
  · simp only [hi, if_false]
    by_cases h3 : i < k
    · simp [h3, show i < k + 1 by omega]
    · simp only [h3, if_false, show ¬ i < k + 1 by omega]
      congr 1
      omega

theorem drop_eq_cons (full : List Nat) (k : Nat) (h : k < full.length) :
    full.drop k = full.getD k 0 :: full.drop (k + 1) := by
  rw [List.drop_eq_getElem_cons h]
  simp [List.getD_eq_getElem?_getD, List.getElem?_eq_getElem h]

theorem read_more_head (record : List Nat) (k : Nat) (h : k < 10) :
    read_more record k = some true := by
  simp [read_more, sizeof_hex_record, header_len, h]; omega

theorem read_more_body (record : List Nat) (k : Nat) (h : 10 ≤ k) (hl : record.length = 76) :
    read_more record k = some (decide (k < 76 ∧
      2 * hex_to_uint8 (record.getD 0 0) (record.getD 1 0) + 10 ≠ k)) := by
  simp only [read_more, sizeof_hex_record, header_len]
  rw [hex_to_uint8_at_eq record 0 (by omega)]
  by_cases h1 : k < 76
  · simp [h1]; omega
  · simp [h1]

theorem getD_take_append (full r : List Nat) (k j : Nat) (h1 : j < k) (h2 : k ≤ full.length) :
    (full.take k ++ r).getD j 0 = full.getD j 0 := by
  simp only [List.getD_eq_getElem?_getD]
  rw [List.getElem?_append_left (by simp; omega), List.getElem?_take_of_lt h1]

/-- The loop that fills the record: fed the characters `full` of a whole
record, whose count is fixed by its own length field (and capped at the size
of the struct), it stores them and then processes the record. -/
theorem run_read_loop (full r0 : List Nat) (L : Nat) (hr : r0.length = 76)
    (hlen : full.length = min (2 * L + 10) 76)
    (hL : hex_to_uint8 (full.getD 0 0) (full.getD 1 0) = L) (t : Nat) (acc : PageAcc) :
    ∀ d k, k + d + 1 = full.length →
      run ⟨Phase.ReadRecord, t, acc, full.take k ++ r0.drop k, k⟩ ((full.drop k).map Input.rx)
        = process_record ⟨Phase.ReadRecord, t, acc, full ++ r0.drop full.length, full.length⟩ := by
  have hb : 10 ≤ full.length ∧ full.length ≤ 76 ∧ full.length ≤ 2 * L + 10
      ∧ (full.length = 76 ∨ full.length = 2 * L + 10) := by
    rw [min_def] at hlen
    split_ifs at hlen <;> omega
  clear hlen
  intro d
  induction d with
  | zero =>
    intro k hk
    have hk1 : k < full.length := by omega
    rw [drop_eq_cons full k hk1, List.drop_of_length_le (show full.length ≤ k + 1 by omega)]
    simp only [List.map_cons, List.map_nil, run, step, List.length_append, List.length_take,
      List.length_drop, List.append_nil]
    rw [if_pos (by omega), set_take_drop full r0 k hk1 (by omega)]
    have e1 : (k + 1) % 256 = full.length := by omega
    have e2 : full.take (k + 1) = full := List.take_of_length_le (by omega)
    rw [e1, e2, ← hk]
    have hrm : read_more (full ++ List.drop (k + 0 + 1) r0) (k + 0 + 1) = some false := by
      rw [read_more_body _ _ (by omega) (by simp; omega)]
      have g0 : (full ++ List.drop (k + 0 + 1) r0).getD 0 0 = full.getD 0 0 := by
        have := getD_take_append full (List.drop (k + 0 + 1) r0) (k + 1) 0 (by omega) (by omega)
        rwa [e2] at this
      have g1 : (full ++ List.drop (k + 0 + 1) r0).getD 1 0 = full.getD 1 0 := by
        have := getD_take_append full (List.drop (k + 0 + 1) r0) (k + 1) 1 (by omega) (by omega)
        rwa [e2] at this
      rw [g0, g1, hL]
      simp
      omega
    simp only [hrm]
  | succ d ih =>
    intro k hk
    have hk1 : k < full.length := by omega
    rw [drop_eq_cons full k hk1]
    simp only [List.map_cons, run, step, List.length_append, List.length_take, List.length_drop]
    rw [if_pos (by omega), set_take_drop full r0 k hk1 (by omega)]
    have e1 : (k + 1) % 256 = k + 1 := by omega
    rw [e1]
    have hrm : read_more (full.take (k + 1) ++ List.drop (k + 1) r0) (k + 1) = some true := by
      by_cases h10 : k + 1 < 10
      · exact read_more_head _ _ h10
      · rw [read_more_body _ _ (by omega) (by simp; omega),
          getD_take_append full _ (k + 1) 0 (by omega) (by omega),
          getD_take_append full _ (k + 1) 1 (by omega) (by omega), hL]
        simp
        omega
    simp only [hrm, List.nil_append]
    exact ih (k + 1) (by omega)

/-! ### Steps of the page accumulator and of the driver -/

theorem store_byte_in_range (acc : PageAcc) (a v : Nat)
    (h1 : acc.page_buffer_start ≤ a) (h2 : a < (acc.page_buffer_start + 128) % 65536) :
    store_byte acc a v
      = some ({ acc with page_buffer := acc.page_buffer.set (a - acc.page_buffer_start) v }, []) := by
  have h3 : ¬ ((acc.page_buffer_start + 128) % 65536 ≤ a) := by omega
  have h4 : ¬ (a < acc.page_buffer_start) := by omega
  have h5 : (a + 65536 - acc.page_buffer_start) % 65536 % 256 = a - acc.page_buffer_start := by
    omega
  simp only [store_byte, SPM_PAGESIZE, h3, h4, decide_False, Bool.or_self, Bool.false_eq_true,
    if_false, h5]
  rw [if_pos (by omega)]

theorem store_byte_flush (acc : PageAcc) (a v : Nat) (ha : a < 65536)
    (h : (acc.page_buffer_start + 128) % 65536 ≤ a ∨ a < acc.page_buffer_start) :
    store_byte acc a v
      = some ({ acc with page_buffer := (List.replicate 128 255).set (a % 128) v,
                         page_buffer_start := a - a % 128 },
              program_page acc.page_buffer_start acc.page_buffer) := by
  have h5 : (a + 65536 - (a - a % 128)) % 65536 % 256 = a % 128 := by omega
  have hf : (decide ((acc.page_buffer_start + 128) % 65536 ≤ a)
      || decide (a < acc.page_buffer_start)) = true := by
    simpa using h
  simp only [store_byte, SPM_PAGESIZE, hf, if_true, h5]
  rw [if_pos (by omega)]

theorem run_skip (s : State) (junk : List Input) (hp : s.phase = Phase.AwaitColon)
    (ht : s.TCCR1B = 0) (hj : Input.rx 58 ∉ junk) : run s junk = (s, []) := by
  induction junk with
  | nil => rfl
  | cons x xs ih =>
    have hx : x ≠ Input.rx 58 := fun e => hj (by simp [e])
    have hs : step s x = (s, []) := by
      cases x with
      | idle => rfl
      | timer => simp [step, ht]
      | rx c =>
        have : c ≠ 58 := fun e => hx (by rw [e])
        simp [step, hp, this]
    simp only [run, hs, List.nil_append]
    exact ih (fun h => hj (List.mem_cons_of_mem _ h))

theorem run_booted (s : State) (inp : List Input) (hp : s.phase = Phase.Booted)
    (ht : s.TCCR1B = 0) : run s inp = (s, []) := by
  induction inp with
  | nil => rfl
  | cons x xs ih =>
    have hs : step s x = (s, []) := by
      cases x <;> simp [step, ht, hp]
    simp only [run, hs, List.nil_append]
    exact ih

theorem run_bytes (s : State) (inp : List Input) (h : Input.timer ∉ inp) :
    run s inp = run s ((bytes_of inp).map Input.rx) := by
  induction inp generalizing s with
  | nil => rfl
  | cons x xs ih =>
    have hxs : Input.timer ∉ xs := fun h1 => h (List.mem_cons_of_mem _ h1)
    cases x with
    | idle => simp only [run, step, bytes_of, List.nil_append]; exact ih s hxs
    | timer => simp at h
    | rx c => simp only [run, bytes_of, List.map_cons, ih _ hxs]

/-- From the loop that waits for the start marker: a `':'` followed by the
characters of one record, whose count is fixed by its length field (capped at
the size of the struct), leads to the processing of that record. -/
theorem run_record (s : State) (full : List Nat) (L : Nat)
    (hp : s.phase = Phase.AwaitColon) (hr : s.record.length = 76)
    (hlen : full.length = min (2 * L + 10) 76)
    (hL : hex_to_uint8 (full.getD 0 0) (full.getD 1 0) = L) :
    run s (Input.rx 58 :: full.map Input.rx)
      = process_record ⟨Phase.ReadRecord, s.TCCR1B, s.acc,
          full ++ s.record.drop full.length, full.length⟩ := by
  have hpos : 0 < full.length := by
    rw [min_def] at hlen
    split_ifs at hlen <;> omega
  have := run_read_loop full s.record L hr hlen hL s.TCCR1B s.acc (full.length - 1) 0 (by omega)
  simp only [List.take_zero, List.drop_zero, List.nil_append] at this
  simp only [run, step, hp, if_true, List.nil_append]
  exact this

theorem run_junk_record (s : State) (junk full : List Nat) (rest : List Input) (L : Nat)
    (hp : s.phase = Phase.AwaitColon) (ht : s.TCCR1B = 0) (hr : s.record.length = 76)
    (hj : 58 ∉ junk) (hlen : full.length = min (2 * L + 10) 76)
    (hL : hex_to_uint8 (full.getD 0 0) (full.getD 1 0) = L) :
    run s (junk.map Input.rx ++ (Input.rx 58 :: full.map Input.rx) ++ rest)
      = ((run (process_record ⟨Phase.ReadRecord, s.TCCR1B, s.acc,
            full ++ s.record.drop full.length, full.length⟩).1 rest).1,
         (process_record ⟨Phase.ReadRecord, s.TCCR1B, s.acc,
            full ++ s.record.drop full.length, full.length⟩).2
          ++ (run (process_record ⟨Phase.ReadRecord, s.TCCR1B, s.acc,
            full ++ s.record.drop full.length, full.length⟩).1 rest).2) := by
  have hj2 : Input.rx 58 ∉ junk.map Input.rx := by
    intro h
    obtain ⟨c, hc, e⟩ := List.mem_map.mp h
    injection e with e
    exact hj (e ▸ hc)
  rw [run_append, run_append, run_skip s _ hp ht hj2, run_record s full L hp hr hlen hL]
  simp

theorem process_record_data (s : State) (acc1 : PageAcc) (out : List Effect)
    (h1 : record_checksum_verify s.record = some true) (h2 : s.record[7]? = some 48)
    (h3 : data_record s.acc s.record = some (acc1, out)) :
    process_record s = ({ s with phase := Phase.AwaitColon, acc := acc1 }, out) := by
  simp [process_record, h1, h2, h3]

theorem process_record_eof (s : State)
    (h1 : record_checksum_verify s.record = some true) (h2 : s.record[7]? = some 49) :
    process_record s = ({ s with phase := Phase.Booted, TCCR1B := 0 }, eof_record s.acc) := by
  simp [process_record, h1, h2]

theorem wire_record_type_zero (record : List Nat) (addr : Nat) (data : List Nat)
    (h : is_wire_record record addr 0 data = true) : record[7]? = some 48 := by
  have h1 := wire_record_type_char record addr 0 data h
  have hl := wire_record_length record addr 0 data h
  rw [getElem?_eq_getD record 7 (by omega)]
  simp [is_hex_digit] at h1
  simp [h1]

theorem wire_record_type_one (record : List Nat) (addr : Nat) (data : List Nat)
    (h : is_wire_record record addr 1 data = true) : record[7]? = some 49 := by
  have h1 := wire_record_type_char record addr 1 data h
  have hl := wire_record_length record addr 1 data h
  rw [getElem?_eq_getD record 7 (by omega)]
  simp [is_hex_digit] at h1
  simp [h1]

/-- The data loop on a wire record all of whose bytes fall into the active
page: nothing is committed, and the bytes land at their offsets. -/
theorem data_loop_in_page (record : List Nat) (addr typ : Nat) (data : List Nat)
    (acc : PageAcc) (h : is_wire_record record addr typ data = true) (hd : data.length ≤ 33)
    (hb : acc.page_buffer.length = 128)
    (h1 : acc.page_buffer_start ≤ addr) (h2 : addr + data.length ≤ acc.page_buffer_start + 128)
    (h3 : acc.page_buffer_start + 128 < 65536) :
    ∀ n, n ≤ data.length →
      data_loop record addr acc n
        = some (⟨acc.page_buffer_start_set, acc.page_buffer_start,
            List.take (addr - acc.page_buffer_start + n)
                (acc.page_buffer.take (addr - acc.page_buffer_start) ++ data)
              ++ acc.page_buffer.drop (addr - acc.page_buffer_start + n)⟩, []) := by
  intro n
  induction n with
  | zero =>
    intro _
    simp only [data_loop, Nat.add_zero]
    rw [List.take_append_of_le_length (by simp; omega), List.take_take, Nat.min_self,
      List.take_append_drop]
  | succ n ih =>
    intro hn
    rw [data_loop, ih (by omega), wire_record_data record addr typ data h hd n (by omega)]
    simp only []
    rw [store_byte_in_range _ _ _ (by simp only []; omega) (by simp only []; omega)]
    simp only [List.append_nil]
    have e1 : (addr + n) % 65536 - acc.page_buffer_start = addr - acc.page_buffer_start + n := by
      omega
    have e2 : data.getD n 0
        = (acc.page_buffer.take (addr - acc.page_buffer_start) ++ data).getD
            (addr - acc.page_buffer_start + n) 0 := by
      simp only [List.getD_eq_getElem?_getD]
      rw [List.getElem?_append_right (by simp)]
      congr 2
      simp
      omega
    rw [e1, e2, set_take_drop _ _ _ (by simp; omega) (by omega)]
    rfl

theorem data_record_wire (record : List Nat) (addr typ : Nat) (data : List Nat) (acc : PageAcc)
    (h : is_wire_record record addr typ data = true) (hd : data.length ≤ 33)
    (ha : addr < 65536) :
    data_record acc record = data_loop record addr (activate_page acc addr) data.length := by
  simp [data_record, wire_record_address record addr typ data h ha,
    wire_record_data_length record addr typ data h hd]

theorem type_one_char (c0 c1 : Nat) (h : hex_to_uint8 c0 c1 = 1) : c1 = 49 := by
  have key : ∀ a, a < 36 → ∀ b, b < 36 → ((a <<< 4) ||| b) % 256 = 1 → b = 1 := by decide
  have ha : hex_to_uint4 c0 < 36 := by unfold hex_to_uint4; split_ifs <;> omega
  have hb : hex_to_uint4 c1 < 36 := by unfold hex_to_uint4; split_ifs <;> omega
  have := key _ ha _ hb h
  unfold hex_to_uint4 at this
  split_ifs at this <;> omega

/-! ### Records that stay inside one page -/

theorem data_record_single (acc : PageAcc) (record : List Nat) (a v p : Nat)
    (hw : is_wire_record record a 0 [v] = true) (hset : acc.page_buffer_start_set ≠ 0)
    (hp : acc.page_buffer_start = p) (h1 : p ≤ a) (h2 : a < p + 128) (h3 : p + 128 < 65536) :
    data_record acc record
      = some (⟨acc.page_buffer_start_set, p, acc.page_buffer.set (a - p) v⟩, []) := by
  have hd : ([v] : List Nat).length ≤ 33 := by simp
  have r0 := wire_record_data record a 0 _ hw hd 0 (by simp)
  simp only [List.getD_cons_zero] at r0
  have hact : activate_page acc a = acc := by simp [activate_page, hset]
  rw [data_record_wire record a 0 _ _ hw hd (by omega), hact]
  simp only [data_loop, List.length_cons, List.length_nil, r0]
  have a0 : (a + 0) % 65536 = a := by omega
  rw [a0, store_byte_in_range _ _ _ (by omega) (by omega), hp]
  simp only [List.nil_append]

theorem data_records_in_page (f : Nat → Nat) (recOf : Nat → List Nat) (p : Nat)
    (h3 : p + 128 < 65536) (as : List Nat) :
    ∀ acc : PageAcc, acc.page_buffer_start_set ≠ 0 → acc.page_buffer_start = p →
      (∀ a ∈ as, p ≤ a ∧ a < p + 128 ∧ is_wire_record (recOf a) a 0 [f a] = true) →
      data_records acc (as.map recOf)
        = some (⟨acc.page_buffer_start_set, p,
            as.foldl (fun buf a => buf.set (a - p) (f a)) acc.page_buffer⟩, []) := by
  induction as with
  | nil =>
    intro acc _ hp _
    cases acc
    simp only at hp
    simp [data_records, hp]
  | cons x xs ih =>
    intro acc hset hp hall
    obtain ⟨hx1, hx2, hx3⟩ := hall x (List.mem_cons_self _ _)
    rw [List.map_cons, data_records, data_record_single acc _ x (f x) p hx3 hset hp hx1 hx2 h3]
    simp only []
    rw [ih ⟨acc.page_buffer_start_set, p, acc.page_buffer.set (x - p) (f x)⟩ hset rfl
      (fun a ha => hall a (List.mem_cons_of_mem _ ha))]
    simp

theorem foldl_set_length (f : Nat → Nat) (p : Nat) (as : List Nat) :
    ∀ buf : List Nat, (as.foldl (fun buf a => buf.set (a - p) (f a)) buf).length = buf.length := by
  induction as with
  | nil => intro buf; rfl
  | cons x xs ih => intro buf; simp [List.foldl_cons, ih]

theorem foldl_set_get (f : Nat → Nat) (p : Nat) (as : List Nat) :
    ∀ (buf : List Nat) (i : Nat), i < buf.length → (∀ a ∈ as, p ≤ a) →
      (as.foldl (fun buf a => buf.set (a - p) (f a)) buf)[i]?
        = if p + i ∈ as then some (f (p + i)) else buf[i]? := by
  induction as with
  | nil => intro buf i _ _; simp
  | cons x xs ih =>
    intro buf i hi hall
    rw [List.foldl_cons, ih _ i (by simpa using hi) (fun a ha => hall a (List.mem_cons_of_mem _ ha))]
    have hx := hall x (List.mem_cons_self _ _)
    by_cases h1 : p + i ∈ xs
    · simp [h1]
    · simp only [h1, if_false, List.mem_cons, or_false]
      by_cases h2 : p + i = x
      · subst h2
        simp [hi]
      · simp only [h2, if_false]
        rw [List.getElem?_set_ne (by omega)]

/-! ### What every data record preserves -/

/-- One iteration of the data loop never fails for a 16-bit address, and what
it does: the byte lands at `a - page_buffer_start`, inside the page; outside
the active range the old page is committed first. -/
theorem store_byte_spec (acc : PageAcc) (a v : Nat) (ha : a < 65536)
    (hb : acc.page_buffer.length = 128) :
    ∃ acc2 out2, store_byte acc a v = some (acc2, out2)
      ∧ acc2.page_buffer_start_set = acc.page_buffer_start_set
      ∧ (acc.page_buffer_start % 128 = 0 → acc2.page_buffer_start % 128 = 0)
      ∧ acc2.page_buffer.length = 128
      ∧ acc2.page_buffer_start ≤ a ∧ a - acc2.page_buffer_start < 128
      ∧ acc2.page_buffer[a - acc2.page_buffer_start]? = some v
      ∧ ((a < acc.page_buffer_start ∨ acc.page_buffer_start + 128 ≤ a) →
          out2 = program_page acc.page_buffer_start acc.page_buffer
            ∧ acc2.page_buffer_start = a - a % 128
            ∧ acc2.page_buffer = (List.replicate 128 255).set (a % 128) v) := by
  by_cases hf : (acc.page_buffer_start + 128) % 65536 ≤ a ∨ a < acc.page_buffer_start
  · refine ⟨_, _, store_byte_flush acc a v ha hf, rfl, fun _ => by simp only []; omega,
      by simp, by simp only []; omega, by simp only []; omega, ?_, fun _ => ⟨rfl, rfl, rfl⟩⟩
    have e : a - (a - a % 128) = a % 128 := by omega
    simp only [e]
    rw [List.getElem?_set_self (by simp; omega)]
  · have h1 : acc.page_buffer_start ≤ a := by omega
    have h2 : a < (acc.page_buffer_start + 128) % 65536 := by omega
    refine ⟨_, _, store_byte_in_range acc a v h1 h2, rfl, fun h => h, by simp [hb], h1,
      by simp only []; omega, ?_, fun h => by omega⟩
    simp only []
    rw [List.getElem?_set_self (by omega)]

theorem data_loop_spec (record : List Nat) (recordAddr : Nat) (acc0 : PageAcc)
    (hr : record.length = 76) (hb : acc0.page_buffer.length = 128)
    (hal : acc0.page_buffer_start % 128 = 0) :
    ∀ n, n ≤ 34 → ∃ acc out, data_loop record recordAddr acc0 n = some (acc, out)
      ∧ acc.page_buffer_start_set = acc0.page_buffer_start_set
      ∧ acc.page_buffer_start % 128 = 0 ∧ acc.page_buffer.length = 128 := by
  intro n
  induction n with
  | zero => intro _; exact ⟨acc0, [], rfl, rfl, hal, hb⟩
  | succ n ih =>
    intro hn
    obtain ⟨acc, out, h1, h2, h3, h4⟩ := ih (by omega)
    obtain ⟨acc2, out2, k1, k2, k3, k4, _⟩ :=
      store_byte_spec acc ((recordAddr + n) % 65536)
        (hex_to_uint8 (record.getD (8 + n * 2) 0) (record.getD (8 + n * 2 + 1) 0))
        (Nat.mod_lt _ (by omega)) h4
    refine ⟨acc2, out ++ out2, ?_, by rw [k2, h2], k3 h3, k4⟩
    rw [data_loop, h1]
    simp only []
    rw [hex_to_uint8_at_eq record (8 + n * 2) (by omega)]
    simp only [k1]

theorem activate_page_spec (acc : PageAcc) (recordAddr : Nat)
    (hal : acc.page_buffer_start_set ≠ 0 → acc.page_buffer_start % 128 = 0) :
    (activate_page acc recordAddr).page_buffer_start_set ≠ 0
      ∧ (activate_page acc recordAddr).page_buffer_start % 128 = 0
      ∧ (activate_page acc recordAddr).page_buffer = acc.page_buffer := by
  unfold activate_page SPM_PAGESIZE
  by_cases h : acc.page_buffer_start_set = 0
  · rw [if_pos h]
    refine ⟨by simp, by simp only []; omega, rfl⟩
  · rw [if_neg h]
    exact ⟨h, hal h, rfl⟩

theorem data_record_spec (acc : PageAcc) (record : List Nat)
    (hr : record.length = 76)
    (hL : hex_to_uint8 (record.getD 0 0) (record.getD 1 0) ≤ 32)
    (hb : acc.page_buffer.length = 128)
    (hal : acc.page_buffer_start_set ≠ 0 → acc.page_buffer_start % 128 = 0) :
    ∃ acc1 out, data_record acc record = some (acc1, out)
      ∧ acc1.page_buffer_start_set ≠ 0
      ∧ acc1.page_buffer_start % 128 = 0 ∧ acc1.page_buffer.length = 128 := by
  obtain ⟨a1, a2, a3⟩ := activate_page_spec acc
    (hex_to_uint16 (record.getD 2 0) (record.getD 3 0) (record.getD 4 0) (record.getD 5 0)) hal
  obtain ⟨acc1, out, h1, h2, h3, h4⟩ := data_loop_spec record
    (hex_to_uint16 (record.getD 2 0) (record.getD 3 0) (record.getD 4 0) (record.getD 5 0))
    _ hr (by rw [a3]; exact hb) a2 _ (show hex_to_uint8 (record.getD 0 0) (record.getD 1 0) ≤ 34
      by omega)
  refine ⟨acc1, out, ?_, by rw [h2]; exact a1, h3, h4⟩
  rw [data_record, hex_to_uint16_at_eq record 2 (by omega), hex_to_uint8_at_eq record 0 (by omega)]
  exact h1

theorem data_records_spec (recs : List (List Nat))
    (hrecs : ∀ r ∈ recs, r.length = 76 ∧ hex_to_uint8 (r.getD 0 0) (r.getD 1 0) ≤ 32) :
    ∀ acc : PageAcc, acc.page_buffer.length = 128 →
      (acc.page_buffer_start_set ≠ 0 → acc.page_buffer_start % 128 = 0) →
      ∃ acc1 out, data_records acc recs = some (acc1, out)
        ∧ acc1.page_buffer.length = 128
        ∧ (acc1.page_buffer_start_set ≠ 0 → acc1.page_buffer_start % 128 = 0) := by
  induction recs with
  | nil => intro acc hb hal; exact ⟨acc, [], rfl, hb, hal⟩
  | cons r rs ih =>
    intro acc hb hal
    obtain ⟨hr1, hr2⟩ := hrecs r (List.mem_cons_self _ _)
    obtain ⟨acc1, out1, h1, h2, h3, h4⟩ := data_record_spec acc r hr1 hr2 hb hal
    obtain ⟨acc2, out2, k1, k2, k3⟩ :=
      ih (fun x hx => hrecs x (List.mem_cons_of_mem _ hx)) acc1 h4 (fun _ => h3)
    refine ⟨acc2, out1 ++ out2, ?_, k2, k3⟩
    rw [data_records, h1]
    simp only [k1]

/-! ### The upper-case encoder -/

theorem hex_char_digit (v : Nat) (h : v < 16) : is_hex_digit (hex_char v) v = true := by
  unfold is_hex_digit hex_char
  by_cases h1 : v < 10
  · simp [h1]
  · simp [h1]
    omega

theorem encode_bytes_encodes (bs : List Nat) (h : ∀ b ∈ bs, b < 256) :
    encodes (encode_bytes bs) bs = true := by
  induction bs with
  | nil => rfl
  | cons b bs ih =>
    have hb : b < 256 := h b (List.mem_cons_self _ _)
    simp only [encode_bytes, encodes, Bool.and_eq_true]
    exact ⟨⟨hex_char_digit _ (by omega), hex_char_digit _ (Nat.mod_lt _ (by omega))⟩,
      ih (fun x hx => h x (List.mem_cons_of_mem _ hx))⟩

theorem encode_bytes_length (bs : List Nat) : (encode_bytes bs).length = 2 * bs.length := by
  induction bs with
  | nil => rfl
  | cons b bs ih => simp only [encode_bytes, List.length_cons, ih]; omega

/-- The buffer built by `record_buffer` holds the wire record it was built
from. -/
theorem record_buffer_wire (addr typ : Nat) (data : List Nat) (ha : addr < 65536)
    (ht : typ < 256) (hd : ∀ b ∈ data, b < 256) (hl : data.length ≤ 33) :
    is_wire_record (record_buffer addr typ data) addr typ data = true := by
  have hlen : (encode_bytes (wire_bytes addr typ data)).length = 2 * (data.length + 5) := by
    rw [encode_bytes_length, wire_bytes_length]
  simp only [is_wire_record, record_buffer, sizeof_hex_record, Bool.and_eq_true,
    decide_eq_true_eq, List.length_append, List.length_replicate, hlen]
  refine ⟨by omega, ?_⟩
  rw [List.take_append_of_le_length (by omega), List.take_of_length_le (by omega)]
  apply encode_bytes_encodes
  intro b hb
  simp only [wire_bytes, List.cons_append, List.nil_append, List.mem_cons, List.mem_append,
    List.mem_singleton, List.not_mem_nil, or_false] at hb
  rcases hb with h | h | h | h | h | h
  · omega
  · omega
  · omega
  · omega
  · exact hd b h
  · omega

/-! ## The claims -/

/-- C1. End-to-end scenario.  For every choice of 16 data bytes: when the bytes
delivered to `main` are the trigger byte `'p'`, then `':'` and the record
`10000000` + the 16 data bytes as hex pairs + their checksum, then `':'` and
`00000001FF` (with bytes other than `':'` allowed before each `':'`, reads that
return nothing allowed anywhere, and anything at all after the last record),
the effects of `main` after its start-up messages are: the message that
programming mode is entered, one `program_page` call for page 0 whose content
is the 16 data bytes followed by 112 bytes `0xFF`, and `boot_app`, which ends
in the jump to address 0.  Nothing else is done to the flash. -/
theorem end_to_end_scenario (stack data cs j0 j1 rest : List Nat) (inp : List Input)
    (hstack : stack.length = 76) (hdata : data.length = 16)
    (hcs : encodes cs (data ++ [(256 - (16 + data.sum) % 256) % 256]) = true)
    (hj0 : 58 ∉ j0) (hj1 : 58 ∉ j1) (htimer : Input.timer ∉ inp)
    (hinp : bytes_of inp
      = 112 :: (j0 ++ 58 :: ([49, 48, 48, 48, 48, 48, 48, 48] ++ cs)
          ++ (j1 ++ 58 :: [48, 48, 48, 48, 48, 48, 48, 49, 70, 70] ++ rest))) :
    (main stack inp).1.phase = Phase.Booted
      ∧ (main stack inp).2
        = main_prelude ++ [Effect.uart_sendstr "Entering programming mode\n"]
            ++ program_page 0 (data ++ List.replicate 112 255) ++ boot_app := by
  have hcslen : cs.length = 34 := by
    have := (encodes_decoded _ _ hcs).1
    simp [hdata] at this
    exact this
  -- the first record
  have hw1 : is_wire_record (([49, 48, 48, 48, 48, 48, 48, 48] ++ cs) ++ stack.drop 42) 0 0 data
      = true := by
    have e : List.take 42 (([49, 48, 48, 48, 48, 48, 48, 48] ++ cs) ++ stack.drop 42)
        = [49, 48, 48, 48, 48, 48, 48, 48] ++ cs := by
      rw [List.take_append_of_le_length (by simp [hcslen])]
      exact List.take_of_length_le (by simp [hcslen])
    simp only [is_wire_record, hdata, sizeof_hex_record, Bool.and_eq_true, decide_eq_true_eq]
    refine ⟨by simp [hcslen, hstack], ?_⟩
    rw [e]
    simp only [wire_bytes, hdata, List.cons_append, List.nil_append, encodes, List.sum_cons,
      List.sum_append, List.sum_nil]
    simpa [is_hex_digit] using hcs
  have hd1 : data_record PageAcc.fresh (([49, 48, 48, 48, 48, 48, 48, 48] ++ cs) ++ stack.drop 42)
      = some (⟨1, 0, data ++ List.replicate 112 255⟩, []) := by
    rw [data_record_wire _ 0 0 data _ hw1 (by omega) (by omega)]
    have := data_loop_in_page _ 0 0 data (activate_page PageAcc.fresh 0) hw1 (by omega)
      (by simp [activate_page, PageAcc.fresh, SPM_PAGESIZE])
      (by simp [activate_page, PageAcc.fresh, SPM_PAGESIZE])
      (by simp [activate_page, PageAcc.fresh, SPM_PAGESIZE, hdata])
      (by simp [activate_page, PageAcc.fresh, SPM_PAGESIZE]) data.length (le_refl _)
    rw [this]
    simp [activate_page, PageAcc.fresh, SPM_PAGESIZE, hdata]
  -- the end-of-file record
  have hw2 : ∀ r : List Nat, r.length = 76 →
      is_wire_record ([48, 48, 48, 48, 48, 48, 48, 49, 70, 70] ++ r.drop 10) 0 1 [] = true := by
    intro r hr
    simp only [is_wire_record, sizeof_hex_record, Bool.and_eq_true, decide_eq_true_eq]
    refine ⟨by simp [hr], ?_⟩
    rw [List.take_append_of_le_length (by simp)]
    decide
  have hlen1 : ([49, 48, 48, 48, 48, 48, 48, 48] ++ cs).length = min (2 * 16 + 10) 76 := by
    simp [hcslen]
  have hlen2 : ([48, 48, 48, 48, 48, 48, 48, 49, 70, 70] : List Nat).length
      = min (2 * 0 + 10) 76 := by decide
  have e42 : ([49, 48, 48, 48, 48, 48, 48, 48] ++ cs).length = 42 := by simp [hcslen]
  have hsplit : List.map Input.rx (j0 ++ 58 :: ([49, 48, 48, 48, 48, 48, 48, 48] ++ cs)
          ++ (j1 ++ 58 :: [48, 48, 48, 48, 48, 48, 48, 49, 70, 70] ++ rest))
      = j0.map Input.rx
          ++ (Input.rx 58 :: ([49, 48, 48, 48, 48, 48, 48, 48] ++ cs).map Input.rx)
          ++ (j1.map Input.rx
              ++ (Input.rx 58 :: ([48, 48, 48, 48, 48, 48, 48, 49, 70, 70] : List Nat).map Input.rx)
              ++ rest.map Input.rx) := by
    simp
  simp only [main]
  rw [run_bytes _ _ htimer, hinp, List.map_cons, hsplit]
  simp only [run, step, main_init, if_true]
  rw [run_junk_record _ j0 _ _ 16 rfl rfl hstack hj0 hlen1
    (by show hex_to_uint8 49 48 = 16; decide)]
  simp only [e42]
  rw [process_record_data _ _ _ (wire_record_checksum _ 0 0 data hw1 (by omega))
    (wire_record_type_zero _ 0 data hw1) hd1]
  simp only []
  rw [run_junk_record _ j1 _ _ 0 rfl rfl (wire_record_length _ 0 0 data hw1) hj1 hlen2
    (by decide)]
  have hw2a := hw2 _ (wire_record_length _ 0 0 data hw1)
  rw [process_record_eof _ (wire_record_checksum _ 0 1 [] hw2a (by simp))
    (wire_record_type_one _ 0 [] hw2a)]
  simp only []
  rw [run_booted _ _ rfl rfl]
  simp [eof_record]

/-- Witness for C1: the data bytes 0..15 (checksum `0x78`), line ends between
the records and one read that returns nothing. -/
theorem end_to_end_scenario_witness :
    (main (List.replicate 76 0)
        (Input.idle :: List.map Input.rx
          (112 :: ([10] ++ 58 :: ([49, 48, 48, 48, 48, 48, 48, 48]
              ++ encode_bytes (List.range 16 ++ [120]))
            ++ ([13, 10] ++ 58 :: [48, 48, 48, 48, 48, 48, 48, 49, 70, 70] ++ [10]))))).2
      = main_prelude ++ [Effect.uart_sendstr "Entering programming mode\n"]
          ++ program_page 0 (List.range 16 ++ List.replicate 112 255) ++ boot_app :=
  (end_to_end_scenario (List.replicate 76 0) (List.range 16)
    (encode_bytes (List.range 16 ++ [120])) [10] [13, 10] [10] _
    (by decide) (by decide) (by decide) (by decide) (by decide) (by decide) (by decide)).2

/-- C2. For every 76-byte record buffer whose length field decodes to `L` with
`L ≤ 32`, `record_checksum_verify` returns, and it returns true exactly when
the sum modulo 256 of the `5 + L` decoded bytes of the record (length, address
high, address low, type, the `L` data bytes, the checksum byte) is 0. -/
theorem checksum_verify_iff_sum_zero (record : List Nat) (L : Nat)
    (hlen : record.length = sizeof_hex_record)
    (hL : hex_to_uint8 (record.getD 0 0) (record.getD 1 0) = L) (hle : L ≤ 32) :
    record_checksum_verify record
      = some (decide ((decoded_bytes record (5 + L)).sum % 256 = 0)) := by
  have h76 : record.length = 76 := hlen
  rw [record_checksum_verify, hex_to_uint8_at_eq record 0 (by omega)]
  simp only [Nat.zero_add, hL]
  have hrl : (header_len / 2 + L) % 256 = 5 + L := by
    simp only [header_len]; omega
  rw [hrl, checksum_loop_eq record (5 + L) (by omega)]
  cases h : (decoded_bytes record (5 + L)).sum % 256 <;> simp

/-- Witness for C2: the record `0400000001020304F2`. -/
theorem checksum_verify_iff_sum_zero_witness :
    record_checksum_verify (record_buffer 0 0 [1, 2, 3, 4])
      = some (decide ((decoded_bytes (record_buffer 0 0 [1, 2, 3, 4]) (5 + 4)).sum % 256 = 0)) :=
  checksum_verify_iff_sum_zero (record_buffer 0 0 [1, 2, 3, 4]) 4 (by decide) (by decide)
    (by decide)

/-- C3. A record that fails checksum verification is never acted upon.  For
every state of the driver that waits for a record in programming mode (any
page accumulator, page active or not) and every received record on which
`record_checksum_verify` returns false, whatever its type characters: reading
and processing the record emits the diagnostic `Checksum verification failed`
and nothing else (no page commit, no control transfer), leaves the page
accumulator unchanged, and the driver is back in the loop that waits for the
next `':'`. -/
theorem checksum_failure_discards_record (s : State) (junk full : List Nat) (L : Nat)
    (hp : s.phase = Phase.AwaitColon) (ht : s.TCCR1B = 0) (hr : s.record.length = 76)
    (hj : 58 ∉ junk) (hlen : full.length = min (2 * L + 10) 76)
    (hL : hex_to_uint8 (full.getD 0 0) (full.getD 1 0) = L)
    (hsum : record_checksum_verify (full ++ s.record.drop full.length) = some false) :
    run s (junk.map Input.rx ++ (Input.rx 58 :: full.map Input.rx))
      = (⟨Phase.AwaitColon, s.TCCR1B, s.acc, full ++ s.record.drop full.length, full.length⟩,
         [Effect.uart_sendstr "Checksum verification failed\n"]) := by
  have := run_junk_record s junk full [] L hp ht hr hj hlen hL
  rw [List.append_nil] at this
  rw [this]
  simp [process_record, hsum, run]

/-- Witness for C3: the record `00000001FE`, whose checksum byte is wrong, with
a page active. -/
theorem checksum_failure_discards_record_witness :
    run ⟨Phase.AwaitColon, 0, ⟨1, 128, List.replicate 128 7⟩, List.replicate 76 0, 0⟩
        (List.map Input.rx [10]
          ++ (Input.rx 58 :: List.map Input.rx [48, 48, 48, 48, 48, 48, 48, 49, 70, 69]))
      = (⟨Phase.AwaitColon, 0, ⟨1, 128, List.replicate 128 7⟩,
          [48, 48, 48, 48, 48, 48, 48, 49, 70, 69] ++ (List.replicate 76 0).drop 10, 10⟩,
         [Effect.uart_sendstr "Checksum verification failed\n"]) :=
  checksum_failure_discards_record
    ⟨Phase.AwaitColon, 0, ⟨1, 128, List.replicate 128 7⟩, List.replicate 76 0, 0⟩
    [10] [48, 48, 48, 48, 48, 48, 48, 49, 70, 69] 0 rfl rfl (by decide) (by decide) (by decide)
    (by decide) (by decide)

/-- C4. Checksum round-trip.  For every 16-bit address, every record type byte
and every data byte sequence of length at most 32: if a record buffer holds
the record encoded per the wire format (length, address high byte first, type,
data, checksum equal to the two's complement of the sum of the bytes before
it; every byte as two hex digits, high nibble first, letters in upper or lower
case), then the decoders of the program give the values back
(`hex_to_uint8` of the length field is the length, `hex_to_uint16` of the
address field is the address, `hex_to_uint8` of the type field is the type and
of the `i`-th data pair the `i`-th data byte) and `record_checksum_verify`
accepts the record. -/
theorem wire_record_round_trip (addr typ : Nat) (data record : List Nat)
    (ha : addr < 65536) (hd : data.length ≤ 32)
    (h : is_wire_record record addr typ data = true) :
    hex_to_uint8_at record 0 = some data.length
      ∧ hex_to_uint16_at record 2 = some addr
      ∧ hex_to_uint8_at record 6 = some typ
      ∧ (∀ i, i < data.length → hex_to_uint8_at record (8 + i * 2) = some (data.getD i 0))
      ∧ record_checksum_verify record = some true :=
  ⟨wire_record_data_length record addr typ data h (by omega),
   wire_record_address record addr typ data h ha,
   wire_record_type record addr typ data h (by omega),
   fun i hi => wire_record_data record addr typ data h (by omega) i hi,
   wire_record_checksum record addr typ data h (by omega)⟩

/-- Witness for C4: the record `02abCD00deAD..` with letters in both cases. -/
theorem wire_record_round_trip_witness :
    hex_to_uint8_at
        ([48, 50, 97, 98, 67, 68, 48, 48, 100, 101, 65, 68, 70, 66] ++ List.replicate 62 0) 0
      = some [222, 173].length :=
  (wire_record_round_trip 43981 0 [222, 173]
    ([48, 50, 97, 98, 67, 68, 48, 48, 100, 101, 65, 68, 70, 66] ++ List.replicate 62 0)
    (by decide) (by decide) (by decide)).1

/-- C5. Cross-page spill.  For every page boundary `b` (a multiple of 128 with
`128 ≤ b` and `b + 128 < 2^16`): starting from the accumulator with no active
page and an all-`0xFF` buffer, the branch for a data record, run on a wire
record of the 4 bytes `d0..d3` at address `b - 2`, commits exactly page
`b - 128` with content `0xFF` everywhere except `d0`, `d1` at offsets 126 and
127, and the branch for the end-of-file record then commits page `b` with
content `d2`, `d3` at offsets 0 and 1 and `0xFF` everywhere else, and boots. -/
theorem cross_page_spill (b d0 d1 d2 d3 : Nat) (record : List Nat)
    (hb : b % 128 = 0) (hlo : 128 ≤ b) (hhi : b + 128 < 65536)
    (hrec : is_wire_record record (b - 2) 0 [d0, d1, d2, d3] = true) :
    data_record PageAcc.fresh record
        = some (⟨1, b, [d2, d3] ++ List.replicate 126 255⟩,
                program_page (b - 128) (List.replicate 126 255 ++ [d0, d1]))
      ∧ eof_record ⟨1, b, [d2, d3] ++ List.replicate 126 255⟩
        = program_page b ([d2, d3] ++ List.replicate 126 255) ++ boot_app := by
  have hd : ([d0, d1, d2, d3] : List Nat).length ≤ 33 := by simp
  have r0 := wire_record_data record (b - 2) 0 _ hrec hd 0 (by simp)
  have r1 := wire_record_data record (b - 2) 0 _ hrec hd 1 (by simp)
  have r2 := wire_record_data record (b - 2) 0 _ hrec hd 2 (by simp)
  have r3 := wire_record_data record (b - 2) 0 _ hrec hd 3 (by simp)
  simp only [List.getD_cons_zero, List.getD_cons_succ] at r0 r1 r2 r3
  have hact : activate_page PageAcc.fresh (b - 2) = ⟨1, b - 128, List.replicate 128 255⟩ := by
    have e : (b - 2) - (b - 2) % 128 = b - 128 := by omega
    unfold activate_page PageAcc.fresh SPM_PAGESIZE
    rw [if_pos rfl]
    simp only [e]
  have a0 : (b - 2 + 0) % 65536 = b - 2 := by omega
  have a1 : (b - 2 + 1) % 65536 = b - 1 := by omega
  have a2 : (b - 2 + 2) % 65536 = b := by omega
  have a3 : (b - 2 + 3) % 65536 = b + 1 := by omega
  refine ⟨?_, ?_⟩
  · rw [data_record_wire record (b - 2) 0 _ _ hrec hd (by omega), hact]
    simp only [data_loop, List.length_cons, List.length_nil, r0, r1, r2, r3, a0, a1, a2, a3]
    rw [store_byte_in_range _ _ _ (by simp only []; omega) (by simp only []; omega)]
    simp only []
    rw [store_byte_in_range _ _ _ (by simp only []; omega) (by simp only []; omega)]
    simp only []
    rw [store_byte_flush _ _ _ (by omega) (Or.inl (by simp only []; omega))]
    simp only []
    rw [store_byte_in_range _ _ _ (by simp only []; omega) (by simp only []; omega)]
    have e1 : b - 2 - (b - 128) = 126 := by omega
    have e2 : b - 1 - (b - 128) = 127 := by omega
    have e3 : b % 128 = 0 := hb
    have e4 : b - b % 128 = b := by omega
    have e5 : b + 1 - b = 1 := by omega
    have l1 : ((List.replicate 128 255).set 126 d0).set 127 d1
        = List.replicate 126 255 ++ [d0, d1] := by rfl
    have l2 : ((List.replicate 128 255).set 0 d2).set 1 d3
        = [d2, d3] ++ List.replicate 126 255 := by rfl
    simp only [e1, e2, e3, e5, Nat.sub_zero, List.nil_append, List.append_nil, l1, l2]
  · simp [eof_record]

/-- Witness for C5: the boundary 128 and the bytes 1, 2, 3, 4 at address 126. -/
theorem cross_page_spill_witness :
    data_record PageAcc.fresh (record_buffer 126 0 [1, 2, 3, 4])
        = some (⟨1, 128, [3, 4] ++ List.replicate 126 255⟩,
                program_page (128 - 128) (List.replicate 126 255 ++ [1, 2]))
      ∧ eof_record ⟨1, 128, [3, 4] ++ List.replicate 126 255⟩
        = program_page 128 ([3, 4] ++ List.replicate 126 255) ++ boot_app :=
  cross_page_spill 128 1 2 3 4 (record_buffer 126 0 [1, 2, 3, 4]) (by decide) (by decide)
    (by decide) (by decide)

/-- C6. Page-accumulator invariant.  Take any sequence `recs` of data records
(76-byte buffers with any address and a length field of at most 32) absorbed
from the fresh accumulator, then a further such record and any of its bytes,
number `k`.  All of these succeed: the records are absorbed, the loop reaches
iteration `k`, and the iteration stores the byte (no read or write is out of
bounds).  Before and after the iteration a page is active, its start is a
multiple of the page size and the buffer has `SPM_PAGESIZE` bytes.  The byte
with address `a = (recordAddr + k) mod 2^16` is stored at index
`a - page_buffer_start`, which is below the page size.  And when `a` lies
outside the range of the page that was active, that page is committed with
its content, the buffer is reset to `0xFF`, and the start becomes
`a - a mod pageSize` before the byte is stored. -/
theorem page_accumulator_invariant (recs : List (List Nat)) (record : List Nat) (k : Nat)
    (hrecs : ∀ r ∈ recs, r.length = 76 ∧ hex_to_uint8 (r.getD 0 0) (r.getD 1 0) ≤ 32)
    (hr : record.length = 76)
    (hL : hex_to_uint8 (record.getD 0 0) (record.getD 1 0) ≤ 32)
    (hk : k < hex_to_uint8 (record.getD 0 0) (record.getD 1 0)) :
    ∃ acc0 out0 recordAddr acc out value acc2 out2,
      data_records PageAcc.fresh recs = some (acc0, out0)
      ∧ hex_to_uint16_at record 2 = some recordAddr
      ∧ data_loop record recordAddr (activate_page acc0 recordAddr) k = some (acc, out)
      ∧ hex_to_uint8_at record (8 + k * 2) = some value
      ∧ store_byte acc ((recordAddr + k) % 65536) value = some (acc2, out2)
      ∧ acc.page_buffer_start_set ≠ 0 ∧ acc.page_buffer_start % SPM_PAGESIZE = 0
      ∧ acc.page_buffer.length = SPM_PAGESIZE
      ∧ acc2.page_buffer_start_set ≠ 0 ∧ acc2.page_buffer_start % SPM_PAGESIZE = 0
      ∧ acc2.page_buffer.length = SPM_PAGESIZE
      ∧ acc2.page_buffer_start ≤ (recordAddr + k) % 65536
      ∧ (recordAddr + k) % 65536 - acc2.page_buffer_start < SPM_PAGESIZE
      ∧ acc2.page_buffer[(recordAddr + k) % 65536 - acc2.page_buffer_start]? = some value
      ∧ (((recordAddr + k) % 65536 < acc.page_buffer_start
            ∨ acc.page_buffer_start + SPM_PAGESIZE ≤ (recordAddr + k) % 65536) →
          out2 = program_page acc.page_buffer_start acc.page_buffer
            ∧ acc2.page_buffer_start
                = (recordAddr + k) % 65536 - (recordAddr + k) % 65536 % SPM_PAGESIZE
            ∧ acc2.page_buffer
                = (List.replicate SPM_PAGESIZE 255).set
                    ((recordAddr + k) % 65536 % SPM_PAGESIZE) value) := by
  obtain ⟨acc0, out0, h0, hb0, hal0⟩ := data_records_spec recs hrecs PageAcc.fresh
    (by simp [PageAcc.fresh, SPM_PAGESIZE]) (by simp [PageAcc.fresh])
  obtain ⟨a1, a2, a3⟩ := activate_page_spec acc0
    (hex_to_uint16 (record.getD 2 0) (record.getD 3 0) (record.getD 4 0) (record.getD 5 0)) hal0
  obtain ⟨acc, out, h1, h2, h3, h4⟩ := data_loop_spec record
    (hex_to_uint16 (record.getD 2 0) (record.getD 3 0) (record.getD 4 0) (record.getD 5 0))
    _ hr (by rw [a3]; exact hb0) a2 k (by omega)
  obtain ⟨acc2, out2, k1, k2, k3, k4, k5, k6, k7, k8⟩ :=
    store_byte_spec acc
      ((hex_to_uint16 (record.getD 2 0) (record.getD 3 0) (record.getD 4 0) (record.getD 5 0)
        + k) % 65536)
      (hex_to_uint8 (record.getD (8 + k * 2) 0) (record.getD (8 + k * 2 + 1) 0))
      (Nat.mod_lt _ (by omega)) h4
  have hact : acc.page_buffer_start_set ≠ 0 := by rw [h2]; exact a1
  exact ⟨acc0, out0, _, acc, out, _, acc2, out2, h0, hex_to_uint16_at_eq record 2 (by omega), h1,
    hex_to_uint8_at_eq record (8 + k * 2) (by omega), k1, hact, h3, h4,
    by rw [k2]; exact hact, k3 h3, k4, k5, k6, k7, k8⟩

/-- Witness for C6: after a record of 4 bytes at address 126, the second byte
of a record of 2 bytes at address 300. -/
theorem page_accumulator_invariant_witness :
    ∃ acc0 out0 recordAddr acc out value acc2 out2,
      data_records PageAcc.fresh [record_buffer 126 0 [1, 2, 3, 4]] = some (acc0, out0)
      ∧ hex_to_uint16_at (record_buffer 300 0 [9, 8]) 2 = some recordAddr
      ∧ data_loop (record_buffer 300 0 [9, 8]) recordAddr (activate_page acc0 recordAddr) 1
          = some (acc, out)
      ∧ hex_to_uint8_at (record_buffer 300 0 [9, 8]) (8 + 1 * 2) = some value
      ∧ store_byte acc ((recordAddr + 1) % 65536) value = some (acc2, out2)
      ∧ acc.page_buffer_start_set ≠ 0 ∧ acc.page_buffer_start % SPM_PAGESIZE = 0
      ∧ acc.page_buffer.length = SPM_PAGESIZE
      ∧ acc2.page_buffer_start_set ≠ 0 ∧ acc2.page_buffer_start % SPM_PAGESIZE = 0
      ∧ acc2.page_buffer.length = SPM_PAGESIZE
      ∧ acc2.page_buffer_start ≤ (recordAddr + 1) % 65536
      ∧ (recordAddr + 1) % 65536 - acc2.page_buffer_start < SPM_PAGESIZE
      ∧ acc2.page_buffer[(recordAddr + 1) % 65536 - acc2.page_buffer_start]? = some value
      ∧ (((recordAddr + 1) % 65536 < acc.page_buffer_start
            ∨ acc.page_buffer_start + SPM_PAGESIZE ≤ (recordAddr + 1) % 65536) →
          out2 = program_page acc.page_buffer_start acc.page_buffer
            ∧ acc2.page_buffer_start
                = (recordAddr + 1) % 65536 - (recordAddr + 1) % 65536 % SPM_PAGESIZE
            ∧ acc2.page_buffer
                = (List.replicate SPM_PAGESIZE 255).set
                    ((recordAddr + 1) % 65536 % SPM_PAGESIZE) value) :=
  page_accumulator_invariant [record_buffer 126 0 [1, 2, 3, 4]] (record_buffer 300 0 [9, 8]) 1
    (by decide) (by decide) (by decide) (by decide)

/-- C7. Order independence within a page.  For every page start `p` (a multiple
of 128 with `p + 128 < 2^16`), every assignment `f` of a byte to each address
of the page and every permutation `perm` of the addresses `p .. p + 127`:
starting from the fresh accumulator, absorbing the bytes as single-byte wire
data records in the order `perm` commits nothing and leaves page `p` active
with buffer `f p, .., f (p + 127)`, exactly as absorbing them in ascending
order does; finishing then commits that one page, every byte at offset
`address - p`, and boots. -/
theorem order_independence_within_page (p : Nat) (f : Nat → Nat) (recOf : Nat → List Nat)
    (perm : List Nat) (hp : p % 128 = 0) (hhi : p + 128 < 65536)
    (hperm : perm.Perm (List.range' p 128))
    (hrec : ∀ a, p ≤ a → a < p + 128 → is_wire_record (recOf a) a 0 [f a] = true) :
    data_records PageAcc.fresh (perm.map recOf)
        = some (⟨1, p, (List.range' p 128).map f⟩, [])
      ∧ data_records PageAcc.fresh ((List.range' p 128).map recOf)
        = some (⟨1, p, (List.range' p 128).map f⟩, [])
      ∧ eof_record ⟨1, p, (List.range' p 128).map f⟩
        = program_page p ((List.range' p 128).map f) ++ boot_app := by
  have key : ∀ as : List Nat, as.Perm (List.range' p 128) →
      data_records PageAcc.fresh (as.map recOf)
        = some (⟨1, p, (List.range' p 128).map f⟩, []) := by
    intro as has
    have hmem : ∀ a, a ∈ as ↔ p ≤ a ∧ a < p + 128 := by
      intro a
      rw [has.mem_iff, List.mem_range']
      constructor
      · rintro ⟨i, hi, rfl⟩; omega
      · intro h; exact ⟨a - p, by omega, by omega⟩
    have hall : ∀ a ∈ as, p ≤ a ∧ a < p + 128 ∧ is_wire_record (recOf a) a 0 [f a] = true :=
      fun a ha => ⟨((hmem a).mp ha).1, ((hmem a).mp ha).2,
        hrec a ((hmem a).mp ha).1 ((hmem a).mp ha).2⟩
    cases as with
    | nil => simpa using has.length_eq
    | cons x xs =>
      obtain ⟨hx1, hx2, hx3⟩ := hall x (List.mem_cons_self _ _)
      have hact : activate_page PageAcc.fresh x = ⟨1, p, List.replicate 128 255⟩ := by
        have e : x - x % 128 = p := by omega
        unfold activate_page PageAcc.fresh SPM_PAGESIZE
        rw [if_pos rfl]
        simp only [e]
      have hfirst : data_record PageAcc.fresh (recOf x)
          = data_record ⟨1, p, List.replicate 128 255⟩ (recOf x) := by
        rw [data_record_wire _ x 0 _ _ hx3 (by simp) (by omega),
          data_record_wire _ x 0 _ _ hx3 (by simp) (by omega), hact]
        simp [activate_page]
      have hstart : data_records PageAcc.fresh ((x :: xs).map recOf)
          = data_records ⟨1, p, List.replicate 128 255⟩ ((x :: xs).map recOf) := by
        simp only [List.map_cons, data_records, hfirst]
      rw [hstart, data_records_in_page f recOf p hhi (x :: xs) _ (by simp) rfl hall]
      congr 2
      simp only [PageAcc.mk.injEq, true_and]
      apply List.ext_getElem?
      intro i
      by_cases hi : i < 128
      · rw [foldl_set_get f p (x :: xs) _ i (by simpa using hi) (fun a ha => (hall a ha).1),
          if_pos ((hmem (p + i)).mpr (by omega))]
        simp [List.getElem?_map, List.getElem?_range', hi]
      · rw [List.getElem?_eq_none (by rw [foldl_set_length]; simp; omega),
          List.getElem?_eq_none (by simp; omega)]
  exact ⟨key perm hperm, key _ (List.Perm.refl _), by simp [eof_record]⟩

/-- Witness for C7: page 0, the byte `a` at address `a`, descending order. -/
theorem order_independence_within_page_witness :
    data_records PageAcc.fresh
        ((List.range' 0 128).reverse.map (fun a => record_buffer a 0 [a]))
      = some (⟨1, 0, (List.range' 0 128).map (fun a => a)⟩, []) :=
  (order_independence_within_page 0 (fun a => a) (fun a => record_buffer a 0 [a])
    (List.range' 0 128).reverse (by decide) (by decide) (List.reverse_perm _)
    (fun a _ h => record_buffer_wire a 0 [a] (by omega) (by omega)
      (by intro b hb; rw [List.mem_singleton] at hb; omega) (by simp))).1

/-- C8, as the code has it.  Dispatch is by the second type character,
`record.record_type[1]`, alone.  For every state of the driver that waits for
a record in programming mode and every received checksum-valid record with
second type character `t`: if `t` is neither `'0'` nor `'1'` the record is a
no-op (no effect at all, so no page commit and no control transfer, and the
page accumulator is unchanged); if `t` is `'1'` the record is treated as
end-of-file (the accumulator is finished and control is transferred); if `t`
is `'0'` it is treated as data (its effects and the new accumulator are those
of the data branch, and the driver stays in programming mode). -/
theorem dispatch_on_second_type_character (s : State) (junk full : List Nat) (L t : Nat)
    (hp : s.phase = Phase.AwaitColon) (ht : s.TCCR1B = 0) (hr : s.record.length = 76)
    (hj : 58 ∉ junk) (hlen : full.length = min (2 * L + 10) 76)
    (hL : hex_to_uint8 (full.getD 0 0) (full.getD 1 0) = L)
    (hsum : record_checksum_verify (full ++ s.record.drop full.length) = some true)
    (htype : (full ++ s.record.drop full.length)[7]? = some t) :
    (t ≠ 48 → t ≠ 49 →
        run s (junk.map Input.rx ++ (Input.rx 58 :: full.map Input.rx))
          = (⟨Phase.AwaitColon, s.TCCR1B, s.acc, full ++ s.record.drop full.length,
              full.length⟩, []))
      ∧ (t = 49 →
        run s (junk.map Input.rx ++ (Input.rx 58 :: full.map Input.rx))
          = (⟨Phase.Booted, 0, s.acc, full ++ s.record.drop full.length, full.length⟩,
             eof_record s.acc))
      ∧ (t = 48 → ∀ acc1 out,
        data_record s.acc (full ++ s.record.drop full.length) = some (acc1, out) →
        run s (junk.map Input.rx ++ (Input.rx 58 :: full.map Input.rx))
          = (⟨Phase.AwaitColon, s.TCCR1B, acc1, full ++ s.record.drop full.length,
              full.length⟩, out)) := by
  have := run_junk_record s junk full [] L hp ht hr hj hlen hL
  rw [List.append_nil] at this
  rw [this]
  refine ⟨fun h0 h1 => ?_, fun h1 => ?_, fun h0 acc1 out hd => ?_⟩
  · simp [process_record, hsum, htype, h0, h1, run]
  · subst h1
    rw [process_record_eof _ hsum htype]
    simp [run]
  · subst h0
    rw [process_record_data _ acc1 out hsum htype hd]
    simp [run]

/-- Witness for C8: the record `00000002FE`, of type 02, with a page active. -/
theorem dispatch_on_second_type_character_witness :
    run ⟨Phase.AwaitColon, 0, ⟨1, 128, List.replicate 128 7⟩, List.replicate 76 0, 0⟩
        (List.map Input.rx [10]
          ++ (Input.rx 58 :: List.map Input.rx [48, 48, 48, 48, 48, 48, 48, 50, 70, 69]))
      = (⟨Phase.AwaitColon, 0, ⟨1, 128, List.replicate 128 7⟩,
          [48, 48, 48, 48, 48, 48, 48, 50, 70, 69] ++ (List.replicate 76 0).drop 10, 10⟩, []) :=
  (dispatch_on_second_type_character
    ⟨Phase.AwaitColon, 0, ⟨1, 128, List.replicate 128 7⟩, List.replicate 76 0, 0⟩
    [10] [48, 48, 48, 48, 48, 48, 48, 50, 70, 69] 0 50 rfl rfl (by decide) (by decide)
    (by decide) (by decide) (by decide) (by decide)).1 (by decide) (by decide)

/-- Counterexample to C8 as stated: the record `00000011EF` is checksum-valid
and its type byte decodes to `0x11`, which is neither `0x00` nor `0x01`, yet
the driver treats it as end-of-file and transfers control to the
application. -/
theorem dispatch_by_decoded_type_counterexample :
    record_checksum_verify
        ([48, 48, 48, 48, 48, 48, 49, 49, 69, 70] ++ (List.replicate 76 0).drop 10) = some true
      ∧ hex_to_uint8_at
          ([48, 48, 48, 48, 48, 48, 49, 49, 69, 70] ++ (List.replicate 76 0).drop 10) 6 = some 17
      ∧ run ⟨Phase.AwaitColon, 0, PageAcc.fresh, List.replicate 76 0, 0⟩
          (Input.rx 58 :: List.map Input.rx [48, 48, 48, 48, 48, 48, 49, 49, 69, 70])
        = (⟨Phase.Booted, 0, PageAcc.fresh,
            [48, 48, 48, 48, 48, 48, 49, 49, 69, 70] ++ (List.replicate 76 0).drop 10, 10⟩,
           boot_app) := by
  refine ⟨by decide, by decide, ?_⟩
  decide

/-- C9. Finish on end-of-file.  For every state of the driver that waits for a
record in programming mode and every received checksum-valid record whose type
byte decodes to `01`: if a page is active the driver performs exactly one
commit, of `page_buffer_start` with the current content of `page_buffer`, and
then `boot_app` transfers control to address 0; if no page is active it
performs `boot_app` alone, with no page commit. -/
theorem end_of_file_commits_and_boots (s : State) (junk full : List Nat) (L : Nat)
    (hp : s.phase = Phase.AwaitColon) (ht : s.TCCR1B = 0) (hr : s.record.length = 76)
    (hj : 58 ∉ junk) (hlen : full.length = min (2 * L + 10) 76)
    (hL : hex_to_uint8 (full.getD 0 0) (full.getD 1 0) = L)
    (hsum : record_checksum_verify (full ++ s.record.drop full.length) = some true)
    (htype : hex_to_uint8_at (full ++ s.record.drop full.length) 6 = some 1) :
    run s (junk.map Input.rx ++ (Input.rx 58 :: full.map Input.rx))
      = (⟨Phase.Booted, 0, s.acc, full ++ s.record.drop full.length, full.length⟩,
         (if s.acc.page_buffer_start_set ≠ 0
            then program_page s.acc.page_buffer_start s.acc.page_buffer else [])
          ++ boot_app) := by
  have hlen76 : (full ++ s.record.drop full.length).length = 76 := by
    rw [min_def] at hlen
    simp only [List.length_append, List.length_drop]
    split_ifs at hlen <;> omega
  have h7 : (full ++ s.record.drop full.length)[7]? = some 49 := by
    rw [hex_to_uint8_at_eq _ 6 (by omega)] at htype
    injection htype with htype
    rw [getElem?_eq_getD _ 7 (by omega), type_one_char _ _ htype]
  have := run_junk_record s junk full [] L hp ht hr hj hlen hL
  rw [List.append_nil] at this
  rw [this, process_record_eof _ hsum h7]
  simp [run, eof_record]

/-- Witness for C9: the record `00000001FF` with page 128 active. -/
theorem end_of_file_commits_and_boots_witness :
    run ⟨Phase.AwaitColon, 0, ⟨1, 128, List.replicate 128 7⟩, List.replicate 76 0, 0⟩
        (List.map Input.rx [10]
          ++ (Input.rx 58 :: List.map Input.rx [48, 48, 48, 48, 48, 48, 48, 49, 70, 70]))
      = (⟨Phase.Booted, 0, ⟨1, 128, List.replicate 128 7⟩,
          [48, 48, 48, 48, 48, 48, 48, 49, 70, 70] ++ (List.replicate 76 0).drop 10, 10⟩,
         (if (1 : Nat) ≠ 0 then program_page 128 (List.replicate 128 7) else []) ++ boot_app) :=
  end_of_file_commits_and_boots
    ⟨Phase.AwaitColon, 0, ⟨1, 128, List.replicate 128 7⟩, List.replicate 76 0, 0⟩
    [10] [48, 48, 48, 48, 48, 48, 48, 49, 70, 70] 0 rfl rfl (by decide) (by decide) (by decide)
    (by decide) (by decide) (by decide)

/-- C10. No flash modification before the trigger.  For every sequence of inputs
`pre` in which no read delivers the trigger byte `'p'` and the timer does not
fire: every byte is ignored, the state of `main` stays the initial state of
the trigger loop, and nothing happens beyond the start-up messages (so
`program_page` is never called).  When the timer interrupt then fires, the
only effect is `boot_app`, the control transfer to address 0, whatever
arrives afterwards. -/
theorem no_trigger_no_flash (stack : List Nat) (pre post : List Input)
    (h1 : Input.rx 112 ∉ pre) (h2 : Input.timer ∉ pre) :
    main stack pre = (main_init stack, main_prelude)
      ∧ main stack (pre ++ Input.timer :: post)
          = ({ main_init stack with phase := Phase.Booted, TCCR1B := 0 },
             main_prelude ++ boot_app) := by
  have hrun : run (main_init stack) pre = (main_init stack, []) := by
    induction pre with
    | nil => rfl
    | cons x xs ih =>
      have hs : step (main_init stack) x = (main_init stack, []) := by
        cases x with
        | idle => rfl
        | timer => simp at h2
        | rx c =>
          have : c ≠ 112 := fun e => h1 (by simp [e])
          simp [step, main_init, this]
      simp only [run, hs, List.nil_append]
      exact ih (fun h => h1 (List.mem_cons_of_mem _ h)) (fun h => h2 (List.mem_cons_of_mem _ h))
  refine ⟨by simp [main, hrun], ?_⟩
  simp only [main]
  rw [run_append, hrun]
  simp only [run, step, main_init]
  rw [run_booted _ _ rfl rfl]
  simp

/-- Witness for C10: a line end, an empty read and the byte `'x'`, then the
timer, then a late `'p'`. -/
theorem no_trigger_no_flash_witness :
    main (List.replicate 76 0) [Input.rx 10, Input.idle, Input.rx 120] 
        = (main_init (List.replicate 76 0), main_prelude)
      ∧ main (List.replicate 76 0)
          ([Input.rx 10, Input.idle, Input.rx 120] ++ Input.timer :: [Input.rx 112])
        = ({ main_init (List.replicate 76 0) with phase := Phase.Booted, TCCR1B := 0 },
           main_prelude ++ boot_app) :=
  no_trigger_no_flash (List.replicate 76 0) [Input.rx 10, Input.idle, Input.rx 120]
    [Input.rx 112] (by decide) (by decide)

/-! ### The transport buffer: single calls -/

theorem MIN_eq_min (x y : Nat) : MIN x y = min x y := by
  unfold MIN
  rw [min_def]
  split_ifs <;> omega

theorem uart_read_loop_spec (u : Uart) (n : Nat) :
    uart_read_loop u n
      = ({ u with uart_buffer_read_pos :=
            if n = 0 then u.uart_buffer_read_pos else (u.uart_buffer_read_pos + n) % 128 },
         (List.range n).map
           (fun i => u.uart_buffer.getD
             (if i = 0 then u.uart_buffer_read_pos else (u.uart_buffer_read_pos + i) % 128) 0)) := by
  induction n with
  | zero => rfl
  | succ n ih =>
    rw [uart_read_loop, ih]
    simp only [ARRSIZE_uart_buffer, List.range_succ, List.map_append, List.map_cons, List.map_nil]
    congr 1
    by_cases h : n = 0
    · simp [h]
    · simp only [h, if_false, Nat.succ_ne_zero]
      congr 1
      omega

theorem uart_read_loop_ok (u : Uart) (n : Nat) (h : u.uart_buffer_read_pos < 128) :
    uart_read_loop u n
      = ({ u with uart_buffer_read_pos := (u.uart_buffer_read_pos + n) % 128 },
         (List.range n).map
           (fun i => u.uart_buffer.getD ((u.uart_buffer_read_pos + i) % 128) 0)) := by
  rw [uart_read_loop_spec]
  congr 1
  · congr 1
    split_ifs with h0
    · subst h0; omega
    · rfl
  · apply List.map_congr_left
    intro i _
    split_ifs with h0
    · subst h0
      congr 1
      omega
    · rfl

theorem queued_split (u : Uart) (t : Nat) (ht : t ≤ u.uart_buffer_count) :
    queued u
      = (List.range t).map
          (fun i => u.uart_buffer.getD ((u.uart_buffer_read_pos + i) % 128) 0)
        ++ (List.range (u.uart_buffer_count - t)).map
          (fun i => u.uart_buffer.getD (((u.uart_buffer_read_pos + t) % 128 + i) % 128) 0) := by
  have e : u.uart_buffer_count = t + (u.uart_buffer_count - t) := by omega
  unfold queued
  rw [ARRSIZE_uart_buffer]
  conv_lhs => rw [e, List.range_add, List.map_append, List.map_map]
  congr 1
  apply List.map_congr_left
  intro i _
  simp only [Function.comp]
  congr 1
  omega

theorem queued_length (u : Uart) : (queued u).length = u.uart_buffer_count := by
  simp [queued]

theorem uart_xon_spec (u : Uart) :
    uart_xon u
      = if u.uart_rx_enabled = 0 ∧ u.uart_buffer_count < 124
        then ({ u with uart_rx_enabled := 1 }, [17]) else (u, []) := by
  unfold uart_xon uart_can_start_rx ARRSIZE_uart_buffer XON
  by_cases h1 : u.uart_rx_enabled = 0 <;> by_cases h2 : u.uart_buffer_count < 124 <;>
    simp [h1, h2]

theorem uart_xoff_spec (u : Uart) :
    uart_xoff u
      = if u.uart_rx_enabled = 0 then (u, []) else ({ u with uart_rx_enabled := 0 }, [19]) := by
  unfold uart_xoff XOFF
  rfl

/-- What the receive interrupt does, case by case. -/
theorem USART_RX_vect_spec (u : Uart) (rx : Nat) (hc : u.uart_buffer_count ≤ 128) :
    USART_RX_vect u rx
      = if 128 ≤ u.uart_buffer_count then (u, [])
        else if 96 < u.uart_buffer_count + 1 ∧ u.uart_rx_enabled ≠ 0 then
          (⟨u.uart_buffer.set u.uart_buffer_write_pos rx, u.uart_buffer_count + 1,
            u.uart_buffer_read_pos, (u.uart_buffer_write_pos + 1) % 128, 0⟩, [19])
        else
          (⟨u.uart_buffer.set u.uart_buffer_write_pos rx, u.uart_buffer_count + 1,
            u.uart_buffer_read_pos, (u.uart_buffer_write_pos + 1) % 128, u.uart_rx_enabled⟩,
           []) := by
  unfold USART_RX_vect
  simp only [ARRSIZE_uart_buffer, ge_iff_le]
  by_cases h : 128 ≤ u.uart_buffer_count
  · simp [h]
  · have e : (u.uart_buffer_count + 1) % 256 = u.uart_buffer_count + 1 := by omega
    simp only [h, if_false, e, uart_must_stop_rx, ARRSIZE_uart_buffer, uart_xoff_spec,
      decide_eq_true_eq]
    by_cases h1 : 96 < u.uart_buffer_count + 1
    · by_cases h2 : u.uart_rx_enabled = 0
      · simp [h1, h2]
      · simp [h1, h2]
    · have h1' : ¬ (u.uart_buffer_count + 1 > 128 - 32) := by omega
      simp [h1, h1']

/-- What `uart_read` does on a state whose read cursor is a valid slot and
whose count fits a byte. -/
theorem uart_read_spec (u : Uart) (bufsiz : Nat) (hr : u.uart_buffer_read_pos < 128)
    (hc : u.uart_buffer_count < 256) :
    uart_read u bufsiz
      = ((uart_xon ⟨u.uart_buffer, u.uart_buffer_count - min bufsiz u.uart_buffer_count,
            (u.uart_buffer_read_pos + min bufsiz u.uart_buffer_count) % 128,
            u.uart_buffer_write_pos, u.uart_rx_enabled⟩).1,
         (queued u).take bufsiz,
         (uart_xon ⟨u.uart_buffer, u.uart_buffer_count - min bufsiz u.uart_buffer_count,
            (u.uart_buffer_read_pos + min bufsiz u.uart_buffer_count) % 128,
            u.uart_buffer_write_pos, u.uart_rx_enabled⟩).2) := by
  have hm : min bufsiz u.uart_buffer_count ≤ u.uart_buffer_count := Nat.min_le_right _ _
  have e : (u.uart_buffer_count + 256 - min bufsiz u.uart_buffer_count) % 256
      = u.uart_buffer_count - min bufsiz u.uart_buffer_count := by omega
  have hq : (queued u).take bufsiz
      = (List.range (min bufsiz u.uart_buffer_count)).map
          (fun i => u.uart_buffer.getD ((u.uart_buffer_read_pos + i) % 128) 0) := by
    unfold queued
    rw [ARRSIZE_uart_buffer, ← List.map_take, List.take_range]
  unfold uart_read
  simp only [MIN_eq_min, uart_read_loop_ok u _ hr, e, hq]

theorem queued_after_read (u : Uart) (bufsiz : Nat) (en : Nat) :
    queued ⟨u.uart_buffer, u.uart_buffer_count - min bufsiz u.uart_buffer_count,
        (u.uart_buffer_read_pos + min bufsiz u.uart_buffer_count) % 128,
        u.uart_buffer_write_pos, en⟩
      = (queued u).drop bufsiz := by
  have hm : min bufsiz u.uart_buffer_count ≤ u.uart_buffer_count := Nat.min_le_right _ _
  rw [queued_split u _ hm]
  rw [List.drop_append_eq_append_drop, List.drop_of_length_le (by simp),
    List.nil_append]
  simp only [List.length_map, List.length_range]
  have e : bufsiz - min bufsiz u.uart_buffer_count = 0 ∨
      u.uart_buffer_count - min bufsiz u.uart_buffer_count = 0 := by
    rw [min_def]; split_ifs <;> omega
  rcases e with e | e
  · rw [e, List.drop_zero]
    rfl
  · rw [List.drop_of_length_le (by simp [e])]
    simp [queued, e]

theorem queued_after_enqueue (u : Uart) (rx en : Nat) (h : ring_ok u)
    (hc : u.uart_buffer_count < 128) :
    queued ⟨u.uart_buffer.set u.uart_buffer_write_pos rx, u.uart_buffer_count + 1,
        u.uart_buffer_read_pos, (u.uart_buffer_write_pos + 1) % 128, en⟩
      = queued u ++ [rx] := by
  obtain ⟨hl, _, hr, hw, hwe, _⟩ := h
  simp only [queued, ARRSIZE_uart_buffer, List.range_succ, List.map_append, List.map_cons,
    List.map_nil]
  congr 1
  · apply List.map_congr_left
    intro i hi
    have hi2 : i < u.uart_buffer_count := List.mem_range.mp hi
    simp only [List.getD_eq_getElem?_getD]
    rw [List.getElem?_set_ne (by omega)]
  · simp only [List.getD_eq_getElem?_getD, ← hwe]
    rw [List.getElem?_set_self (by omega)]
    rfl

/-! ### The transport buffer: invariant and refinement of the queue -/

theorem ring_ok_init (u : Uart) (h : u.uart_buffer.length = 128) : ring_ok (uart_init u).1 := by
  simp [ring_ok, uart_init, h]

theorem ring_ok_xon (u : Uart) (h : ring_ok u) : ring_ok (uart_xon u).1 := by
  rw [uart_xon_spec]
  obtain ⟨h1, h2, h3, h4, h5, h6⟩ := h
  split_ifs with hc
  · exact ⟨h1, h2, h3, h4, h5, fun _ => hc.2⟩
  · exact ⟨h1, h2, h3, h4, h5, h6⟩

theorem ring_ok_xoff (u : Uart) (h : ring_ok u) : ring_ok (uart_xoff u).1 := by
  rw [uart_xoff_spec]
  obtain ⟨h1, h2, h3, h4, h5, h6⟩ := h
  split_ifs with hc
  · exact ⟨h1, h2, h3, h4, h5, h6⟩
  · exact ⟨h1, h2, h3, h4, h5, fun h => absurd rfl h⟩

theorem ring_ok_enqueue (u : Uart) (rx : Nat) (h : ring_ok u) :
    ring_ok (USART_RX_vect u rx).1 := by
  obtain ⟨h1, h2, h3, h4, h5, h6⟩ := h
  rw [USART_RX_vect_spec u rx h2]
  split_ifs with hc hs
  · exact ⟨h1, h2, h3, h4, h5, h6⟩
  · refine ⟨by simp [h1], by simp only []; omega, h3, by simp only []; omega,
      by simp only []; omega, fun h => absurd rfl h⟩
  · refine ⟨by simp [h1], by simp only []; omega, h3, by simp only []; omega,
      by simp only []; omega, fun h => ?_⟩
    simp only [] at h ⊢
    have := h6 h
    omega

theorem ring_ok_read (u : Uart) (bufsiz : Nat) (h : ring_ok u) :
    ring_ok (uart_read u bufsiz).1 := by
  obtain ⟨h1, h2, h3, h4, h5, h6⟩ := h
  rw [uart_read_spec u bufsiz h3 (by omega)]
  apply ring_ok_xon
  have hm : min bufsiz u.uart_buffer_count ≤ u.uart_buffer_count := Nat.min_le_right _ _
  exact ⟨h1, by simp only []; omega, by simp only []; omega, h4, by simp only []; omega,
    fun h => by simp only [] at h ⊢; have := h6 h; omega⟩

theorem ring_ok_step (u : Uart) (op : UartOp) (h : ring_ok u) : ring_ok (uart_step u op).1 := by
  cases op with
  | enqueue rx => exact ring_ok_enqueue u rx h
  | read n => exact ring_ok_read u n h
  | xon => exact ring_ok_xon u h
  | xoff => exact ring_ok_xoff u h

theorem ring_ok_run (ops : List UartOp) : ∀ u : Uart, ring_ok u → ring_ok (uart_run u ops).1 := by
  induction ops with
  | nil => intro u h; exact h
  | cons op ops ih => intro u h; exact ih _ (ring_ok_step u op h)

theorem uart_run_append (u : Uart) (a b : List UartOp) :
    uart_run u (a ++ b)
      = ((uart_run (uart_run u a).1 b).1, (uart_run u a).2 ++ (uart_run (uart_run u a).1 b).2) := by
  induction a generalizing u with
  | nil => rfl
  | cons x xs ih => simp [uart_run, ih]

/-- The ring buffer refines the abstract queue: the two hand out the same
bytes call by call, and the queued bytes are the abstract queue. -/
theorem uart_refines_fifo (ops : List UartOp) :
    ∀ u : Uart, ring_ok u →
      (uart_run u ops).2.map UartOut.data = (fifo_run (queued u) ops).2
        ∧ queued (uart_run u ops).1 = (fifo_run (queued u) ops).1 := by
  induction ops with
  | nil => intro u _; exact ⟨rfl, rfl⟩
  | cons op ops ih =>
    intro u h
    have h' := ring_ok_step u op h
    obtain ⟨h1, h2, h3, h4, h5, h6⟩ := h
    have hstep : (uart_step u op).2.data = (fifo_step (queued u) op).2
        ∧ queued (uart_step u op).1 = (fifo_step (queued u) op).1 := by
      cases op with
      | enqueue rx =>
        simp only [uart_step, fifo_step, queued_length, true_and]
        rw [USART_RX_vect_spec u rx h2]
        split_ifs with hc hs hlt hlt
        · omega
        · rfl
        · exact queued_after_enqueue u rx _ ⟨h1, h2, h3, h4, h5, h6⟩ (by omega)
        · omega
        · exact queued_after_enqueue u rx _ ⟨h1, h2, h3, h4, h5, h6⟩ (by omega)
        · omega
      | read n =>
        simp only [uart_step, fifo_step]
        rw [uart_read_spec u n h3 (by omega), uart_xon_spec]
        refine ⟨rfl, ?_⟩
        split_ifs
        · exact queued_after_read u n _
        · exact queued_after_read u n _
      | xon =>
        simp only [uart_step, fifo_step, uart_xon_spec, true_and]
        split_ifs <;> rfl
      | xoff =>
        simp only [uart_step, fifo_step, uart_xoff_spec, true_and]
        split_ifs <;> rfl
    obtain ⟨i1, i2⟩ := ih _ h'
    simp only [uart_run, fifo_run, List.map_cons]
    rw [i1, i2, hstep.1, hstep.2]
    exact ⟨rfl, rfl⟩

/-- A run in which no receive finds the buffer full loses nothing: what the
reads handed out, followed by what is still queued, is what was queued before
followed by what was received. -/
theorem uart_run_conserves (ops : List UartOp) :
    ∀ u : Uart, ring_ok u → never_full u ops = true →
      ((uart_run u ops).2.map UartOut.data).flatten ++ queued (uart_run u ops).1
        = queued u ++ enqueued ops := by
  induction ops with
  | nil => intro u _ _; simp [uart_run, enqueued]
  | cons op ops ih =>
    intro u h hn
    have h' := ring_ok_step u op h
    obtain ⟨h1, h2, h3, h4, h5, h6⟩ := h
    cases op with
    | enqueue rx =>
      simp only [never_full, Bool.and_eq_true, decide_eq_true_eq, ARRSIZE_uart_buffer] at hn
      simp only [uart_run, List.map_cons, List.flatten_cons, enqueued]
      rw [List.append_assoc, ih _ h' hn.2]
      simp only [uart_step, List.nil_append]
      have : queued (USART_RX_vect u rx).1 = queued u ++ [rx] := by
        rw [USART_RX_vect_spec u rx h2]
        split_ifs with hc hs
        · omega
        · exact queued_after_enqueue u rx _ ⟨h1, h2, h3, h4, h5, h6⟩ hn.1
        · exact queued_after_enqueue u rx _ ⟨h1, h2, h3, h4, h5, h6⟩ hn.1
      rw [this]
      simp
    | read n =>
      simp only [never_full] at hn
      simp only [uart_run, List.map_cons, List.flatten_cons, enqueued]
      rw [List.append_assoc, ih _ h' hn]
      have hq : queued (uart_step u (UartOp.read n)).1 = (queued u).drop n := by
        simp only [uart_step]
        rw [uart_read_spec u n h3 (by omega), uart_xon_spec]
        split_ifs
        · exact queued_after_read u n _
        · exact queued_after_read u n _
      have hd : (uart_step u (UartOp.read n)).2.data = (queued u).take n := by
        simp only [uart_step]
        rw [uart_read_spec u n h3 (by omega)]
      rw [hq, hd, ← List.append_assoc, List.take_append_drop]
    | xon =>
      simp only [never_full] at hn
      simp only [uart_run, List.map_cons, List.flatten_cons, enqueued]
      rw [List.append_assoc, ih _ h' hn]
      have hq : queued (uart_step u UartOp.xon).1 = queued u := by
        simp only [uart_step, uart_xon_spec]
        split_ifs <;> rfl
      rw [hq]
      simp [uart_step]
    | xoff =>
      simp only [never_full] at hn
      simp only [uart_run, List.map_cons, List.flatten_cons, enqueued]
      rw [List.append_assoc, ih _ h' hn]
      have hq : queued (uart_step u UartOp.xoff).1 = queued u := by
        simp only [uart_step, uart_xoff_spec]
        split_ifs <;> rfl
      rw [hq]
      simp [uart_step]

/-! ### The transport buffer: runs of receives and runs of reads -/

theorem queued_init (u : Uart) : queued (uart_init u).1 = [] := by
  simp [queued, uart_init]

theorem enqueue_step_full (u : Uart) (b : Nat) (h : u.uart_buffer_count = 128) :
    uart_step u (UartOp.enqueue b) = (u, ⟨[], []⟩) := by
  simp [uart_step, USART_RX_vect_spec u b (by omega), h]

theorem enqueue_step_room (u : Uart) (b : Nat) (h : u.uart_buffer_count < 128)
    (hf : u.uart_rx_enabled = (if u.uart_buffer_count ≤ 96 then 1 else 0)) :
    (uart_step u (UartOp.enqueue b)).2.tx = (if u.uart_buffer_count = 96 then [XOFF] else [])
      ∧ (uart_step u (UartOp.enqueue b)).1.uart_buffer_count = u.uart_buffer_count + 1
      ∧ (uart_step u (UartOp.enqueue b)).1.uart_rx_enabled
          = (if u.uart_buffer_count + 1 ≤ 96 then 1 else 0) := by
  simp only [uart_step]
  rw [USART_RX_vect_spec u b (by omega), hf, XOFF]
  by_cases h1 : u.uart_buffer_count ≤ 95
  · simp [show ¬ 128 ≤ u.uart_buffer_count by omega, show ¬ 96 < u.uart_buffer_count + 1 by omega,
      show u.uart_buffer_count ≤ 96 by omega, show u.uart_buffer_count + 1 ≤ 96 by omega,
      show u.uart_buffer_count ≠ 96 by omega]
  · by_cases h2 : u.uart_buffer_count = 96
    · simp [h2]
    · simp [show ¬ 128 ≤ u.uart_buffer_count by omega, show 96 < u.uart_buffer_count + 1 by omega,
        show ¬ u.uart_buffer_count ≤ 96 by omega, show ¬ u.uart_buffer_count + 1 ≤ 96 by omega,
        h2]

/-- Enqueues only, from a state whose flag is set exactly while at most 96
bytes are queued: the one stop byte is sent when the count passes 96. -/
theorem enqueue_run_spec (bs : List Nat) :
    ∀ u : Uart, u.uart_buffer_count ≤ 128 →
      u.uart_rx_enabled = (if u.uart_buffer_count ≤ 96 then 1 else 0) →
      (uart_run u (bs.map UartOp.enqueue)).2.map UartOut.tx
          = (List.range bs.length).map
              (fun i => if u.uart_buffer_count + i = 96 then [XOFF] else [])
        ∧ ((uart_run u (bs.map UartOp.enqueue)).2.map UartOut.tx).flatten
          = (if u.uart_buffer_count ≤ 96 ∧ 96 < u.uart_buffer_count + bs.length
              then [XOFF] else [])
        ∧ (uart_run u (bs.map UartOp.enqueue)).1.uart_buffer_count
          = min (u.uart_buffer_count + bs.length) 128
        ∧ (uart_run u (bs.map UartOp.enqueue)).1.uart_rx_enabled
          = (if u.uart_buffer_count + bs.length ≤ 96 then 1 else 0) := by
  induction bs with
  | nil =>
    intro u hc hf
    simp only [List.map_nil, uart_run, List.length_nil, List.range_zero, List.flatten_nil,
      Nat.add_zero]
    refine ⟨trivial, ?_, ?_, hf⟩
    · rw [if_neg (by omega)]
    · rw [min_def]; split_ifs <;> omega
  | cons b bs ih =>
    intro u hc hf
    simp only [List.map_cons, uart_run, List.length_cons, List.flatten_cons]
    rw [List.range_succ_eq_map, List.map_cons, List.map_map]
    by_cases h128 : u.uart_buffer_count = 128
    · obtain ⟨i1, i2, i3, i4⟩ := ih u hc hf
      rw [enqueue_step_full u b h128]
      rw [i2, i1, i3, i4]
      simp only [List.nil_append]
      refine ⟨?_, ?_, ?_, ?_⟩
      · congr 1
        · rw [if_neg (by omega)]
        · apply List.map_congr_left
          intro i _
          simp only [Function.comp, Nat.succ_eq_add_one]
          rw [if_neg (by omega), if_neg (by omega)]
      · rw [if_neg (by omega), if_neg (by omega)]
      · rw [min_def, min_def]; split_ifs <;> omega
      · rw [if_neg (by omega), if_neg (by omega)]
    · have hlt : u.uart_buffer_count < 128 := by omega
      obtain ⟨s1, s2, s3⟩ := enqueue_step_room u b hlt hf
      obtain ⟨i1, i2, i3, i4⟩ := ih (uart_step u (UartOp.enqueue b)).1 (by rw [s2]; omega)
        (by rw [s3, s2])
      rw [i2, i1, i3, i4, s1, s2]
      refine ⟨?_, ?_, ?_, ?_⟩
      · congr 1
        apply List.map_congr_left
        intro i _
        simp only [Function.comp, Nat.succ_eq_add_one]
        congr 1
        simp only [eq_iff_iff]
        omega
      · by_cases h96 : u.uart_buffer_count = 96
        · rw [if_pos h96, if_neg (by omega), if_pos (by omega)]
          rfl
        · rw [if_neg h96, List.nil_append]
          congr 1
          simp only [eq_iff_iff]
          omega
      · congr 1
        omega
      · congr 1
        simp only [eq_iff_iff]
        omega

/-- One `uart_read` on a state that satisfies the invariant: the count drops by
the number of bytes read, and the resume byte is sent exactly when the flag
was clear and fewer than 124 bytes are left. -/
theorem read_step_spec (u : Uart) (n : Nat) (h : ring_ok u) :
    (uart_step u (UartOp.read n)).1.uart_buffer_count
        = u.uart_buffer_count - min n u.uart_buffer_count
      ∧ (uart_step u (UartOp.read n)).2.tx
        = (if u.uart_rx_enabled = 0 ∧ u.uart_buffer_count - min n u.uart_buffer_count < 124
            then [XON] else [])
      ∧ (uart_step u (UartOp.read n)).1.uart_rx_enabled
        = (if u.uart_rx_enabled = 0 ∧ u.uart_buffer_count - min n u.uart_buffer_count < 124
            then 1 else u.uart_rx_enabled) := by
  obtain ⟨h1, h2, h3, h4, h5, h6⟩ := h
  simp only [uart_step]
  rw [uart_read_spec u n h3 (by omega), uart_xon_spec, XON]
  simp only []
  split_ifs <;> exact ⟨rfl, rfl, rfl⟩

/-- While the accepting flag is set, reads send nothing and leave it set. -/
theorem read_run_enabled (sizes : List Nat) :
    ∀ u : Uart, ring_ok u → u.uart_rx_enabled ≠ 0 →
      (uart_run u (sizes.map UartOp.read)).2.map UartOut.tx = sizes.map (fun _ => [])
        ∧ (uart_run u (sizes.map UartOp.read)).1.uart_rx_enabled = u.uart_rx_enabled := by
  induction sizes with
  | nil => intro u _ _; exact ⟨rfl, rfl⟩
  | cons n rest ih =>
    intro u h hf
    obtain ⟨s1, s2, s3⟩ := read_step_spec u n h
    rw [if_neg (fun hh => hf hh.1)] at s2 s3
    obtain ⟨i1, i2⟩ := ih _ (ring_ok_step u _ h) (by rw [s3]; exact hf)
    simp only [List.map_cons, uart_run]
    rw [i1, i2, s2, s3]
    exact ⟨rfl, rfl⟩

theorem read_run_count_le (sizes : List Nat) :
    ∀ u : Uart, ring_ok u →
      (uart_run u (sizes.map UartOp.read)).1.uart_buffer_count ≤ u.uart_buffer_count := by
  induction sizes with
  | nil => intro u _; exact le_refl _
  | cons n rest ih =>
    intro u h
    have := ih _ (ring_ok_step u (UartOp.read n) h)
    have s1 := (read_step_spec u n h).1
    simp only [List.map_cons, uart_run]
    omega

/-- Reads only, from a state whose accepting flag is clear: the read with
index `i` sends the resume byte exactly when it is the first read that leaves
fewer than 124 bytes queued. -/
theorem read_run_spec (sizes : List Nat) :
    ∀ u : Uart, ring_ok u → u.uart_rx_enabled = 0 → ∀ i, i < sizes.length →
      ((uart_run u (sizes.map UartOp.read)).2.map UartOut.tx).getD i []
        = (if (uart_run u ((sizes.take (i + 1)).map UartOp.read)).1.uart_buffer_count < 124
              ∧ ∀ j, j < i →
                124 ≤ (uart_run u ((sizes.take (j + 1)).map UartOp.read)).1.uart_buffer_count
            then [XON] else []) := by
  induction sizes with
  | nil => intro u _ _ i hi; simp at hi
  | cons n rest ih =>
    intro u h hf i hi
    obtain ⟨s1, s2, s3⟩ := read_step_spec u n h
    have h' := ring_ok_step u (UartOp.read n) h
    cases i with
    | zero =>
      simp only [List.map_cons, uart_run, List.getD_cons_zero, List.take_succ_cons, List.take_zero,
        List.map_nil, s2, s1, hf, true_and]
      congr 1
      simp only [eq_iff_iff]
      exact ⟨fun hh => ⟨hh, fun j hj => absurd hj (Nat.not_lt_zero _)⟩, fun hh => hh.1⟩
    | succ i =>
      have hi' : i < rest.length := by simpa using hi
      simp only [List.map_cons, uart_run, List.getD_cons_succ, List.take_succ_cons]
      by_cases hc : u.uart_buffer_count - min n u.uart_buffer_count < 124
      · have hf' : (uart_step u (UartOp.read n)).1.uart_rx_enabled ≠ 0 := by
          rw [s3, if_pos ⟨hf, hc⟩]; omega
        rw [(read_run_enabled rest _ h' hf').1]
        have e : (List.map (fun _ => ([] : List Nat)) rest).getD i [] = [] := by
          simp only [List.getD_eq_getElem?_getD, List.getElem?_map]
          cases rest[i]? <;> rfl
        rw [e, if_neg]
        intro hh
        have := hh.2 0 (Nat.succ_pos _)
        simp only [List.take_zero, List.map_nil, uart_run, Nat.zero_add, List.take_succ_cons,
          List.map_cons] at this
        omega
      · have hf' : (uart_step u (UartOp.read n)).1.uart_rx_enabled = 0 := by
          rw [s3, if_neg (fun hh => hc hh.2)]; exact hf
        rw [ih _ h' hf' i hi']
        congr 1
        simp only [eq_iff_iff]
        constructor
        · rintro ⟨a, b⟩
          refine ⟨a, fun j hj => ?_⟩
          cases j with
          | zero =>
            simp only [List.take_zero, List.map_nil, uart_run, Nat.zero_add, List.take_succ_cons,
              List.map_cons]
            omega
          | succ j =>
            exact b j (by omega)
        · rintro ⟨a, b⟩
          refine ⟨a, fun j hj => ?_⟩
          exact b (j + 1) (by omega)

/-- Reads only, from a state whose accepting flag is clear: one resume byte in
all if some read leaves fewer than 124 bytes queued, none otherwise, and the
flag ends set exactly in the first case. -/
theorem read_run_total (sizes : List Nat) :
    ∀ u : Uart, ring_ok u → u.uart_rx_enabled = 0 →
      ((uart_run u (sizes.map UartOp.read)).2.map UartOut.tx).flatten
          = (if ∃ i, i < sizes.length ∧
                (uart_run u ((sizes.take (i + 1)).map UartOp.read)).1.uart_buffer_count < 124
              then [XON] else [])
        ∧ (uart_run u (sizes.map UartOp.read)).1.uart_rx_enabled
          = (if ∃ i, i < sizes.length ∧
                (uart_run u ((sizes.take (i + 1)).map UartOp.read)).1.uart_buffer_count < 124
              then 1 else 0) := by
  induction sizes with
  | nil =>
    intro u _ hf
    simp [uart_run, hf]
  | cons n rest ih =>
    intro u h hf
    obtain ⟨s1, s2, s3⟩ := read_step_spec u n h
    have h' := ring_ok_step u (UartOp.read n) h
    simp only [List.map_cons, uart_run, List.flatten_cons, List.take_succ_cons, List.length_cons]
    by_cases hc : u.uart_buffer_count - min n u.uart_buffer_count < 124
    · have hf' : (uart_step u (UartOp.read n)).1.uart_rx_enabled ≠ 0 := by
        rw [s3, if_pos ⟨hf, hc⟩]; omega
      have hex : ∃ i, i < rest.length + 1 ∧
          (uart_run (uart_step u (UartOp.read n)).1
            (List.map UartOp.read (List.take i rest))).1.uart_buffer_count < 124 :=
        ⟨0, Nat.succ_pos _, by simp only [List.take_zero, List.map_nil, uart_run]; omega⟩
      have s2' : (uart_step u (UartOp.read n)).2.tx = [XON] := by rw [s2, if_pos ⟨hf, hc⟩]
      have s3' : (uart_step u (UartOp.read n)).1.uart_rx_enabled = 1 := by
        rw [s3, if_pos ⟨hf, hc⟩]
      have e : (List.map (fun _ => ([] : List Nat)) rest).flatten = [] := by
        clear ih h' hf' hex
        induction rest with
        | nil => rfl
        | cons _ _ ih2 => simp
      rw [(read_run_enabled rest _ h' hf').1, (read_run_enabled rest _ h' hf').2, s2', s3', e]
      simp only [hex, if_true, List.append_nil, and_self]
    · have hf' : (uart_step u (UartOp.read n)).1.uart_rx_enabled = 0 := by
        rw [s3, if_neg (fun hh => hc hh.2)]; exact hf
      obtain ⟨i1, i2⟩ := ih _ h' hf'
      have hiff : (∃ i, i < rest.length + 1 ∧
            (uart_run (uart_step u (UartOp.read n)).1
              (List.map UartOp.read (List.take i rest))).1.uart_buffer_count < 124)
          ↔ (∃ i, i < rest.length ∧
            (uart_run (uart_step u (UartOp.read n)).1
              (List.map UartOp.read (List.take (i + 1) rest))).1.uart_buffer_count < 124) := by
        constructor
        · rintro ⟨i, hi, hlt⟩
          cases i with
          | zero =>
            simp only [List.take_zero, List.map_nil, uart_run] at hlt
            omega
          | succ i => exact ⟨i, by omega, hlt⟩
        · rintro ⟨i, hi, hlt⟩
          exact ⟨i + 1, by omega, hlt⟩
      rw [i1, i2, s2, if_neg (fun hh => hc hh.2), List.nil_append]
      simp only [hiff, and_self]

/-- Enqueues that fit are all stored, in order. -/
theorem enqueue_run_queued (bs : List Nat) :
    ∀ u : Uart, ring_ok u → u.uart_buffer_count + bs.length ≤ 128 →
      queued (uart_run u (bs.map UartOp.enqueue)).1 = queued u ++ bs
        ∧ (uart_run u (bs.map UartOp.enqueue)).1.uart_buffer_count
          = u.uart_buffer_count + bs.length := by
  induction bs with
  | nil => intro u _ _; simp [uart_run]
  | cons b bs ih =>
    intro u h hle
    have h' := ring_ok_step u (UartOp.enqueue b) h
    have hlt : u.uart_buffer_count < 128 := by simp only [List.length_cons] at hle; omega
    have hq : queued (uart_step u (UartOp.enqueue b)).1 = queued u ++ [b]
        ∧ (uart_step u (UartOp.enqueue b)).1.uart_buffer_count = u.uart_buffer_count + 1 := by
      simp only [uart_step]
      rw [USART_RX_vect_spec u b (by omega)]
      split_ifs with hc hs
      · omega
      · exact ⟨queued_after_enqueue u b _ h hlt, rfl⟩
      · exact ⟨queued_after_enqueue u b _ h hlt, rfl⟩
    obtain ⟨i1, i2⟩ := ih _ h' (by rw [hq.2]; simp only [List.length_cons] at hle; omega)
    simp only [List.map_cons, uart_run]
    rw [i1, i2, hq.1, hq.2]
    refine ⟨by simp, by simp only [List.length_cons]; omega⟩

/-! ### Reads that stay inside the received characters -/

theorem store_byte_some (acc : PageAcc) (a v : Nat) (ha : a < 65536) :
    ∃ r, store_byte acc a v = some r := by
  by_cases hf : (acc.page_buffer_start + 128) % 65536 ≤ a ∨ a < acc.page_buffer_start
  · exact ⟨_, store_byte_flush acc a v ha hf⟩
  · exact ⟨_, store_byte_in_range acc a v (by omega) (by omega)⟩

theorem hex_to_uint8_at_append (full tail : List Nat) (off : Nat) (h : off + 1 < full.length) :
    hex_to_uint8_at (full ++ tail) off = hex_to_uint8_at full off := by
  unfold hex_to_uint8_at
  rw [List.getElem?_append_left (by omega), List.getElem?_append_left h]

theorem hex_to_uint16_at_append (full tail : List Nat) (off : Nat) (h : off + 3 < full.length) :
    hex_to_uint16_at (full ++ tail) off = hex_to_uint16_at full off := by
  unfold hex_to_uint16_at
  rw [List.getElem?_append_left (by omega), List.getElem?_append_left (by omega),
    List.getElem?_append_left (by omega), List.getElem?_append_left h]

theorem checksum_loop_append (full tail : List Nat) (n : Nat) (h : 2 * n ≤ full.length) :
    checksum_loop (full ++ tail) n = checksum_loop full n := by
  induction n with
  | zero => rfl
  | succ n ih =>
    rw [checksum_loop, checksum_loop, ih (by omega), hex_to_uint8_at_append _ _ _ (by omega)]

theorem data_loop_append (full tail : List Nat) (recordAddr : Nat) (acc : PageAcc) (n : Nat)
    (h : 8 + 2 * n ≤ full.length) :
    data_loop (full ++ tail) recordAddr acc n = data_loop full recordAddr acc n := by
  induction n with
  | zero => rfl
  | succ n ih =>
    rw [data_loop, data_loop, ih (by omega), hex_to_uint8_at_append _ _ _ (by omega)]

theorem data_loop_some (record : List Nat) (recordAddr : Nat) (acc : PageAcc) (n : Nat)
    (h : 8 + 2 * n ≤ record.length) : ∃ r, data_loop record recordAddr acc n = some r := by
  induction n with
  | zero => exact ⟨_, rfl⟩
  | succ n ih =>
    obtain ⟨⟨acc1, out1⟩, h1⟩ := ih (by omega)
    obtain ⟨⟨acc2, out2⟩, h2⟩ := store_byte_some acc1 ((recordAddr + n) % 65536)
      (hex_to_uint8 (record.getD (8 + n * 2) 0) (record.getD (8 + n * 2 + 1) 0))
      (Nat.mod_lt _ (by omega))
    refine ⟨(acc2, out1 ++ out2), ?_⟩
    rw [data_loop, h1]
    simp only []
    rw [hex_to_uint8_at_eq record (8 + n * 2) (by omega)]
    simp only [h2]

/-! ## The claims on the transport buffer, the decoder and the framing -/

/-- C11. Buffer FIFO.  For every sequence of calls (receive interrupts, reads,
and the flow-control calls of `program_page`) that starts in the state after
`uart_init` and in which no receive interrupt finds the buffer full: the ring
buffer hands out, call by call, exactly what the abstract queue of capacity
128 hands out; each `uart_read(buf, n)` returns the first `n` queued bytes,
that is exactly `min n count` bytes; what the reads returned, in call order,
followed by what is still queued, is the sequence of received bytes in
arrival order, so the bytes returned are a prefix of it: nothing is
reordered, duplicated or skipped, also when the cursors wrap. -/
theorem buffer_fifo (u0 : Uart) (ops : List UartOp)
    (hbuf : u0.uart_buffer.length = 128)
    (hfull : never_full (uart_init u0).1 ops = true) :
    (uart_run (uart_init u0).1 ops).2.map UartOut.data = (fifo_run [] ops).2
      ∧ (∀ pre post n, ops = pre ++ UartOp.read n :: post →
          (uart_read (uart_run (uart_init u0).1 pre).1 n).2.1
              = (queued (uart_run (uart_init u0).1 pre).1).take n
            ∧ ((uart_read (uart_run (uart_init u0).1 pre).1 n).2.1).length
              = min n (uart_run (uart_init u0).1 pre).1.uart_buffer_count)
      ∧ ((uart_run (uart_init u0).1 ops).2.map UartOut.data).flatten
          ++ queued (uart_run (uart_init u0).1 ops).1 = enqueued ops
      ∧ ((uart_run (uart_init u0).1 ops).2.map UartOut.data).flatten <+: enqueued ops := by
  have hinit := ring_ok_init u0 hbuf
  have hcons := uart_run_conserves ops _ hinit hfull
  rw [queued_init, List.nil_append] at hcons
  have href := (uart_refines_fifo ops _ hinit).1
  rw [queued_init] at href
  refine ⟨href, ?_, hcons, ⟨_, hcons⟩⟩
  intro pre post n _
  obtain ⟨h1, h2, h3, h4, h5, h6⟩ := ring_ok_run pre _ hinit
  rw [uart_read_spec _ n h3 (by omega)]
  refine ⟨rfl, ?_⟩
  simp only [List.length_take, queued_length]

/-- Witness for C11: three receives, a read of 5, a receive and a read of
200. -/
theorem buffer_fifo_witness :
    (uart_run (uart_init ⟨List.replicate 128 0, 0, 0, 0, 0⟩).1
        ([UartOp.enqueue 1, UartOp.enqueue 2, UartOp.enqueue 3]
          ++ [UartOp.read 5, UartOp.enqueue 7, UartOp.read 200])).2.map UartOut.data
      = (fifo_run [] ([UartOp.enqueue 1, UartOp.enqueue 2, UartOp.enqueue 3]
          ++ [UartOp.read 5, UartOp.enqueue 7, UartOp.read 200])).2 :=
  (buffer_fifo ⟨List.replicate 128 0, 0, 0, 0, 0⟩
    ([UartOp.enqueue 1, UartOp.enqueue 2, UartOp.enqueue 3] ++ [UartOp.read 5, UartOp.enqueue 7, UartOp.read 200])
    (List.length_replicate 128 0) (by decide)).1

/-- C12. Transport-buffer invariant.  In every state reached from the state after
`uart_init` by any sequence of receive interrupts, `uart_read`, `uart_xon` and
`uart_xoff` calls, the count is at most 128 and both cursors are below 128,
valid slots of the 128-byte array; and for every `bufsiz` the number of bytes
to read is at most the count, so that the `uint8_t` subtraction in `uart_read`
does not wrap: the new count plus the bytes read is the old count. -/
theorem transport_buffer_invariant (u0 : Uart) (ops : List UartOp)
    (hbuf : u0.uart_buffer.length = 128) :
    (uart_run (uart_init u0).1 ops).1.uart_buffer_count ≤ 128
      ∧ (uart_run (uart_init u0).1 ops).1.uart_buffer_read_pos < 128
      ∧ (uart_run (uart_init u0).1 ops).1.uart_buffer_write_pos < 128
      ∧ (uart_run (uart_init u0).1 ops).1.uart_buffer.length = 128
      ∧ ∀ bufsiz,
          MIN bufsiz (uart_run (uart_init u0).1 ops).1.uart_buffer_count
              ≤ (uart_run (uart_init u0).1 ops).1.uart_buffer_count
            ∧ (uart_read (uart_run (uart_init u0).1 ops).1 bufsiz).1.uart_buffer_count
                + MIN bufsiz (uart_run (uart_init u0).1 ops).1.uart_buffer_count
              = (uart_run (uart_init u0).1 ops).1.uart_buffer_count := by
  have h := ring_ok_run ops _ (ring_ok_init u0 hbuf)
  obtain ⟨h1, h2, h3, h4, h5, h6⟩ := h
  refine ⟨h2, h3, h4, h1, fun bufsiz => ?_⟩
  have hs := (read_step_spec _ bufsiz ⟨h1, h2, h3, h4, h5, h6⟩).1
  simp only [uart_step] at hs
  rw [hs, MIN_eq_min]
  have hm : min bufsiz (uart_run (uart_init u0).1 ops).1.uart_buffer_count
      ≤ (uart_run (uart_init u0).1 ops).1.uart_buffer_count := Nat.min_le_right _ _
  omega

/-- Witness for C12: a receive, a read, both flow-control calls and a receive;
then a read of 200. -/
theorem transport_buffer_invariant_witness :
    (uart_read (uart_run (uart_init ⟨List.replicate 128 0, 0, 0, 0, 0⟩).1
        [UartOp.enqueue 1, UartOp.read 3, UartOp.xoff, UartOp.xon, UartOp.enqueue 2]).1
        200).1.uart_buffer_count
      + MIN 200 (uart_run (uart_init ⟨List.replicate 128 0, 0, 0, 0, 0⟩).1
        [UartOp.enqueue 1, UartOp.read 3, UartOp.xoff, UartOp.xon, UartOp.enqueue 2]).1.uart_buffer_count
      = (uart_run (uart_init ⟨List.replicate 128 0, 0, 0, 0, 0⟩).1
        [UartOp.enqueue 1, UartOp.read 3, UartOp.xoff, UartOp.xon, UartOp.enqueue 2]).1.uart_buffer_count :=
  ((transport_buffer_invariant ⟨List.replicate 128 0, 0, 0, 0, 0⟩
    [UartOp.enqueue 1, UartOp.read 3, UartOp.xoff, UartOp.xon, UartOp.enqueue 2]
    (List.length_replicate 128 0)).2.2.2.2 200).2

/-- C13. Overflow drops the newest byte silently.  For every state with count
128 and every received byte, the receive interrupt leaves the whole state
unchanged (array, both cursors, count, accepting flag) and sends nothing.  For
every state with count below 128 it stores that byte at the write cursor,
advances the write cursor, leaves the read cursor alone and increases the
count by one; on a state that satisfies the invariant this appends the byte to
the queued bytes. -/
theorem overflow_drops_newest (u : Uart) (rx : Nat) :
    (u.uart_buffer_count = 128 → USART_RX_vect u rx = (u, []))
      ∧ (u.uart_buffer_count < 128 →
          (USART_RX_vect u rx).1.uart_buffer = u.uart_buffer.set u.uart_buffer_write_pos rx
            ∧ (USART_RX_vect u rx).1.uart_buffer_write_pos = (u.uart_buffer_write_pos + 1) % 128
            ∧ (USART_RX_vect u rx).1.uart_buffer_read_pos = u.uart_buffer_read_pos
            ∧ (USART_RX_vect u rx).1.uart_buffer_count = u.uart_buffer_count + 1
            ∧ (ring_ok u → queued (USART_RX_vect u rx).1 = queued u ++ [rx])) := by
  constructor
  · intro h
    rw [USART_RX_vect_spec u rx (by omega), if_pos (by omega)]
  · intro h
    rw [USART_RX_vect_spec u rx (by omega), if_neg (by omega)]
    split_ifs
    · exact ⟨rfl, rfl, rfl, rfl, fun hr => queued_after_enqueue u rx _ hr h⟩
    · exact ⟨rfl, rfl, rfl, rfl, fun hr => queued_after_enqueue u rx _ hr h⟩

/-- Witness for C13: a full buffer with the flag clear and the byte 9. -/
theorem overflow_drops_newest_witness :
    USART_RX_vect ⟨List.replicate 128 5, 128, 3, 3, 0⟩ 9
      = (⟨List.replicate 128 5, 128, 3, 3, 0⟩, []) :=
  (overflow_drops_newest ⟨List.replicate 128 5, 128, 3, 3, 0⟩ 9).1 rfl

/-- C14. Stop edge.  Starting from the state after `uart_init`, receive the bytes
`bs` with no read in between.  The receive with index `i` (the `i + 1`-th)
sends the stop byte `XOFF` exactly when `i = 96`, that is when it raises the
count to 97, and nothing otherwise; so in all exactly one `XOFF` is sent if
more than 96 bytes arrive and none if at most 96 do, also when later receives
are dropped on a full buffer.  After `k` of the receives the count is
`min k 128` and the accepting flag is set exactly while `k ≤ 96`. -/
theorem stop_edge (u0 : Uart) (bs : List Nat) :
    (uart_run (uart_init u0).1 (bs.map UartOp.enqueue)).2.map UartOut.tx
        = (List.range bs.length).map (fun i => if i = 96 then [XOFF] else [])
      ∧ ((uart_run (uart_init u0).1 (bs.map UartOp.enqueue)).2.map UartOut.tx).flatten
        = (if 96 < bs.length then [XOFF] else [])
      ∧ ∀ k, k ≤ bs.length →
          (uart_run (uart_init u0).1 ((bs.take k).map UartOp.enqueue)).1.uart_buffer_count
              = min k 128
            ∧ (uart_run (uart_init u0).1 ((bs.take k).map UartOp.enqueue)).1.uart_rx_enabled
              = (if k ≤ 96 then 1 else 0) := by
  have hc : (uart_init u0).1.uart_buffer_count = 0 := rfl
  have hf : (uart_init u0).1.uart_rx_enabled
      = (if (uart_init u0).1.uart_buffer_count ≤ 96 then 1 else 0) := rfl
  obtain ⟨e1, e2, _, _⟩ := enqueue_run_spec bs (uart_init u0).1 (by rw [hc]; omega) hf
  refine ⟨?_, ?_, fun k hk => ?_⟩
  · rw [e1]
    simp only [hc, Nat.zero_add]
  · rw [e2]
    simp only [hc, Nat.zero_add, Nat.zero_le, true_and]
  · obtain ⟨_, _, e3, e4⟩ := enqueue_run_spec (bs.take k) (uart_init u0).1 (by rw [hc]; omega) hf
    have hl : (bs.take k).length = k := by simp [List.length_take]; omega
    rw [e3, e4, hl, hc, Nat.zero_add]
    exact ⟨rfl, rfl⟩

/-- Witness for C14: 130 bytes, of which the last two are dropped. -/
theorem stop_edge_witness :
    ((uart_run (uart_init ⟨List.replicate 128 0, 0, 0, 0, 0⟩).1
        ((List.replicate 130 5).map UartOp.enqueue)).2.map UartOut.tx).flatten
      = [XOFF] :=
  ((stop_edge ⟨List.replicate 128 0, 0, 0, 0, 0⟩ (List.replicate 130 5)).2.1).trans
    (if_pos (by simp))

/-- C15. Resume edge.  For every state reached from the state after `uart_init`
in which the accepting flag is clear, and every run of `uart_read` calls with
no receive in between: the read with index `i` sends the resume byte `XON`
exactly when it is the first read of the run that leaves fewer than 124 bytes
queued, and nothing otherwise; so in all exactly one `XON` is sent if some
read leaves the count below 124 and none if none does; and the flag ends set
exactly in the first case (applied to the run up to the sending read: that
read sets the flag). -/
theorem resume_edge (u0 : Uart) (ops : List UartOp) (sizes : List Nat)
    (hbuf : u0.uart_buffer.length = 128)
    (hflag : (uart_run (uart_init u0).1 ops).1.uart_rx_enabled = 0) :
    (∀ i, i < sizes.length →
        ((uart_run (uart_run (uart_init u0).1 ops).1 (sizes.map UartOp.read)).2.map
            UartOut.tx).getD i []
          = (if (uart_run (uart_run (uart_init u0).1 ops).1
                    ((sizes.take (i + 1)).map UartOp.read)).1.uart_buffer_count < 124
                ∧ ∀ j, j < i →
                  124 ≤ (uart_run (uart_run (uart_init u0).1 ops).1
                    ((sizes.take (j + 1)).map UartOp.read)).1.uart_buffer_count
              then [XON] else []))
      ∧ ((uart_run (uart_run (uart_init u0).1 ops).1 (sizes.map UartOp.read)).2.map
            UartOut.tx).flatten
          = (if ∃ i, i < sizes.length ∧
                (uart_run (uart_run (uart_init u0).1 ops).1
                  ((sizes.take (i + 1)).map UartOp.read)).1.uart_buffer_count < 124
              then [XON] else [])
      ∧ (uart_run (uart_run (uart_init u0).1 ops).1 (sizes.map UartOp.read)).1.uart_rx_enabled
          = (if ∃ i, i < sizes.length ∧
                (uart_run (uart_run (uart_init u0).1 ops).1
                  ((sizes.take (i + 1)).map UartOp.read)).1.uart_buffer_count < 124
              then 1 else 0) := by
  have h := ring_ok_run ops _ (ring_ok_init u0 hbuf)
  exact ⟨read_run_spec sizes _ h hflag, (read_run_total sizes _ h hflag).1,
    (read_run_total sizes _ h hflag).2⟩

set_option maxRecDepth 1000000 in
/-- Witness for C15: after 128 receives the flag is clear; reads of 2, 3 and 4
bytes follow, the second leaves 123 bytes, and one `XON` is sent in all. -/
theorem resume_edge_witness :
    ((uart_run (uart_run (uart_init ⟨List.replicate 128 0, 0, 0, 0, 0⟩).1
          ((List.replicate 128 5).map UartOp.enqueue)).1
        ([2, 3, 4].map UartOp.read)).2.map UartOut.tx).flatten = [XON] :=
  ((resume_edge ⟨List.replicate 128 0, 0, 0, 0, 0⟩ ((List.replicate 128 5).map UartOp.enqueue)
    [2, 3, 4] (List.length_replicate 128 0) (by decide)).2.1).trans
    (if_pos ⟨1, by decide, by decide⟩)

/-- C16, as the code has it.  Flow control is gated by the accepting flag and
the water marks.  For every state reached from the state after `uart_init`: a
receive interrupt sends the stop byte exactly when it stores the byte, leaves
more than 96 bytes queued and finds the accepting flag set, and nothing
otherwise; a `uart_read` sends the resume byte exactly when it finds the flag
clear and leaves fewer than 124 bytes queued, and nothing otherwise.  So no
signal is asserted by a receive that leaves the count at or below the high
mark, by a read that leaves it at or above the low mark, or by a call that
finds the flag already in the state the signal would give it. -/
theorem flow_control_gated (u0 : Uart) (ops : List UartOp) (rx n : Nat)
    (hbuf : u0.uart_buffer.length = 128) :
    (uart_step (uart_run (uart_init u0).1 ops).1 (UartOp.enqueue rx)).2.tx
        = (if (uart_run (uart_init u0).1 ops).1.uart_buffer_count < 128
              ∧ 96 < (uart_run (uart_init u0).1 ops).1.uart_buffer_count + 1
              ∧ (uart_run (uart_init u0).1 ops).1.uart_rx_enabled ≠ 0
            then [XOFF] else [])
      ∧ (uart_step (uart_run (uart_init u0).1 ops).1 (UartOp.read n)).2.tx
        = (if (uart_run (uart_init u0).1 ops).1.uart_rx_enabled = 0
              ∧ (uart_run (uart_init u0).1 ops).1.uart_buffer_count
                  - min n (uart_run (uart_init u0).1 ops).1.uart_buffer_count < 124
            then [XON] else []) := by
  have h := ring_ok_run ops _ (ring_ok_init u0 hbuf)
  refine ⟨?_, (read_step_spec _ n h).2.1⟩
  obtain ⟨h1, h2, h3, h4, h5, h6⟩ := h
  simp only [uart_step]
  rw [USART_RX_vect_spec _ rx h2, XOFF]
  split_ifs <;> first | rfl | omega

set_option maxRecDepth 1000000 in
/-- Witness for C16: after 97 receives, one more sends nothing (the flag is
clear) and a read of 0 bytes sends `XON` (97 is below 124). -/
theorem flow_control_gated_witness :
    (uart_step (uart_run (uart_init ⟨List.replicate 128 0, 0, 0, 0, 0⟩).1
        ((List.replicate 97 5).map UartOp.enqueue)).1 (UartOp.enqueue 7)).2.tx = []
      ∧ (uart_step (uart_run (uart_init ⟨List.replicate 128 0, 0, 0, 0, 0⟩).1
        ((List.replicate 97 5).map UartOp.enqueue)).1 (UartOp.read 0)).2.tx = [XON] :=
  ⟨((flow_control_gated ⟨List.replicate 128 0, 0, 0, 0, 0⟩
      ((List.replicate 97 5).map UartOp.enqueue) 7 0 (List.length_replicate 128 0)).1).trans
      (if_neg (by decide)),
   ((flow_control_gated ⟨List.replicate 128 0, 0, 0, 0, 0⟩
      ((List.replicate 97 5).map UartOp.enqueue) 7 0 (List.length_replicate 128 0)).2).trans
      (if_pos (by decide))⟩

set_option maxRecDepth 1000000 in
/-- Counterexample to C16 as stated.  After 98 receives and a read of one byte,
97 bytes are queued; the next receive takes the count from 97 to 98, which
does not cross the high mark 96, and sends `XOFF`.  After 97 receives, a read
of one byte takes the count from 97 to 96, which does not cross the low mark
124, and sends `XON`. -/
theorem edge_triggered_counterexample :
    (uart_run (uart_init ⟨List.replicate 128 0, 0, 0, 0, 0⟩).1
        ((List.replicate 98 5).map UartOp.enqueue ++ [UartOp.read 1])).1.uart_buffer_count = 97
      ∧ (uart_step (uart_run (uart_init ⟨List.replicate 128 0, 0, 0, 0, 0⟩).1
          ((List.replicate 98 5).map UartOp.enqueue ++ [UartOp.read 1])).1
          (UartOp.enqueue 7)).1.uart_buffer_count = 98
      ∧ (uart_step (uart_run (uart_init ⟨List.replicate 128 0, 0, 0, 0, 0⟩).1
          ((List.replicate 98 5).map UartOp.enqueue ++ [UartOp.read 1])).1
          (UartOp.enqueue 7)).2.tx = [XOFF]
      ∧ (uart_run (uart_init ⟨List.replicate 128 0, 0, 0, 0, 0⟩).1
          ((List.replicate 97 5).map UartOp.enqueue)).1.uart_buffer_count = 97
      ∧ (uart_step (uart_run (uart_init ⟨List.replicate 128 0, 0, 0, 0, 0⟩).1
          ((List.replicate 97 5).map UartOp.enqueue)).1 (UartOp.read 1)).1.uart_buffer_count = 96
      ∧ (uart_step (uart_run (uart_init ⟨List.replicate 128 0, 0, 0, 0, 0⟩).1
          ((List.replicate 97 5).map UartOp.enqueue)).1 (UartOp.read 1)).2.tx = [XON] := by
  decide

/-- C17 at the failing input.  The letter `'G'` (71) is outside `0-9`, `A-F` and
`a-f`, yet `hex_to_uint4` gives 16 for it, not 0: the function compares with
`'Z'` and `'z'` where the hex digits end at `'F'` and `'f'`.  So
`hex_to_uint8` of `"0G"` is 16 and of `"G0"` is 0 (the 16 is shifted out),
where `16 * v + v` with `v('G') = 0` gives 0 for both. -/
theorem hex_to_uint4_beyond_F :
    hex_to_uint4 71 = 16 ∧ hex_to_uint8 48 71 = 16 ∧ hex_to_uint8 71 48 = 0
      ∧ hex_to_uint4 90 = 35 ∧ hex_to_uint4 122 = 35 := by
  decide

/-- C18, as the code has it.  Stop-signal headroom.  In every state reached from
the state after `uart_init`, when a receive interrupt sends `XOFF` the count
it leaves is at least 97 and at most 124, so the buffer still has at least 4
free slots, and the next 4 bytes (or fewer) received before any read are all
stored, in order, none is dropped. -/
theorem stop_signal_headroom (u0 : Uart) (ops : List UartOp) (rx : Nat) (bs : List Nat)
    (hbuf : u0.uart_buffer.length = 128)
    (hstop : (USART_RX_vect (uart_run (uart_init u0).1 ops).1 rx).2 = [XOFF])
    (hbs : bs.length ≤ 4) :
    97 ≤ (USART_RX_vect (uart_run (uart_init u0).1 ops).1 rx).1.uart_buffer_count
      ∧ 128 - (USART_RX_vect (uart_run (uart_init u0).1 ops).1 rx).1.uart_buffer_count ≥ 4
      ∧ queued (uart_run (USART_RX_vect (uart_run (uart_init u0).1 ops).1 rx).1
            (bs.map UartOp.enqueue)).1
          = queued (USART_RX_vect (uart_run (uart_init u0).1 ops).1 rx).1 ++ bs
      ∧ (uart_run (USART_RX_vect (uart_run (uart_init u0).1 ops).1 rx).1
            (bs.map UartOp.enqueue)).1.uart_buffer_count
          = (USART_RX_vect (uart_run (uart_init u0).1 ops).1 rx).1.uart_buffer_count
              + bs.length := by
  have h := ring_ok_run ops _ (ring_ok_init u0 hbuf)
  have h' := ring_ok_enqueue _ rx h
  have hcount : 97 ≤ (USART_RX_vect (uart_run (uart_init u0).1 ops).1 rx).1.uart_buffer_count
      ∧ (USART_RX_vect (uart_run (uart_init u0).1 ops).1 rx).1.uart_buffer_count ≤ 124 := by
    obtain ⟨h1, h2, h3, h4, h5, h6⟩ := h
    rw [USART_RX_vect_spec _ rx h2] at hstop ⊢
    split_ifs at hstop ⊢ with hc hs
    have := h6 hs.2
    exact ⟨by show 97 ≤ _ + 1; omega, by show _ + 1 ≤ 124; omega⟩
  obtain ⟨q1, q2⟩ := enqueue_run_queued bs _ h' (by omega)
  exact ⟨hcount.1, by omega, q1, q2⟩

set_option maxRecDepth 1000000 in
/-- Witness for C18: the 97th receive after `uart_init`, then four more bytes. -/
theorem stop_signal_headroom_witness :
    128 - (USART_RX_vect (uart_run (uart_init ⟨List.replicate 128 0, 0, 0, 0, 0⟩).1
        ((List.replicate 96 5).map UartOp.enqueue)).1 7).1.uart_buffer_count ≥ 4 :=
  (stop_signal_headroom ⟨List.replicate 128 0, 0, 0, 0, 0⟩
    ((List.replicate 96 5).map UartOp.enqueue) 7 [1, 2, 3, 4] (List.length_replicate 128 0)
    (by decide) (by decide)).2.1

set_option maxRecDepth 1000000 in
/-- Counterexample to C18 as stated.  After 125 receives and a read of two
bytes the flag is set again with 123 bytes queued; the next receive sends
`XOFF` and leaves 124 bytes, so only 4 slots are free, and of the next 32
bytes received only 4 are stored: the count ends at 128. -/
theorem headroom_counterexample :
    (USART_RX_vect (uart_run (uart_init ⟨List.replicate 128 0, 0, 0, 0, 0⟩).1
        ((List.replicate 125 5).map UartOp.enqueue ++ [UartOp.read 2])).1 7).2 = [XOFF]
      ∧ 128 - (USART_RX_vect (uart_run (uart_init ⟨List.replicate 128 0, 0, 0, 0, 0⟩).1
          ((List.replicate 125 5).map UartOp.enqueue ++ [UartOp.read 2])).1 7).1.uart_buffer_count
        = 4
      ∧ (uart_run (USART_RX_vect (uart_run (uart_init ⟨List.replicate 128 0, 0, 0, 0, 0⟩).1
          ((List.replicate 125 5).map UartOp.enqueue ++ [UartOp.read 2])).1 7).1
          ((List.replicate 32 9).map UartOp.enqueue)).1.uart_buffer_count = 128 := by
  decide

/-- C19, as the code has it.  A data record activates a page even when it
carries no data byte.  For every 16-bit address and every accumulator with no
active page: a wire data record (type 00) with zero data bytes is
checksum-valid, and the data branch on it commits nothing, leaves
`page_buffer` unchanged and activates the page that holds the address
(`page_buffer_start_set` becomes 1, `page_buffer_start` becomes
`address - address mod pageSize`); the end-of-file branch after it commits
that page with the unchanged buffer and boots. -/
theorem zero_length_record_activates_page (addr : Nat) (record : List Nat) (acc : PageAcc)
    (ha : addr < 65536) (hset : acc.page_buffer_start_set = 0)
    (hrec : is_wire_record record addr 0 [] = true) :
    record_checksum_verify record = some true
      ∧ data_record acc record
        = some (⟨1, addr - addr % SPM_PAGESIZE, acc.page_buffer⟩, [])
      ∧ eof_record ⟨1, addr - addr % SPM_PAGESIZE, acc.page_buffer⟩
        = program_page (addr - addr % SPM_PAGESIZE) acc.page_buffer ++ boot_app := by
  refine ⟨wire_record_checksum record addr 0 [] hrec (by simp), ?_, by simp [eof_record]⟩
  rw [data_record_wire record addr 0 [] acc hrec (by simp) ha]
  simp [data_loop, activate_page, hset]

/-- Witness for C19: the zero-length data record at address 300, which lies in
the page that starts at 256. -/
theorem zero_length_record_activates_page_witness :
    data_record PageAcc.fresh (record_buffer 300 0 [])
      = some (⟨1, 300 - 300 % SPM_PAGESIZE, PageAcc.fresh.page_buffer⟩, []) :=
  (zero_length_record_activates_page 300 (record_buffer 300 0 []) PageAcc.fresh (by decide) rfl
    (by decide)).2.1

set_option maxRecDepth 1000000 in
/-- Counterexample to C19 as stated.  From the start of programming mode, the
checksum-valid data record `0000000000` (no data bytes, address 0, type 00)
leaves a page active, and the end-of-file record `00000001FF` after it makes
the driver erase and write page 0 with 128 bytes `0xFF`. -/
theorem zero_length_record_counterexample :
    (run ⟨Phase.AwaitColon, 0, PageAcc.fresh, List.replicate 76 0, 0⟩
        (Input.rx 58 :: List.map Input.rx [48, 48, 48, 48, 48, 48, 48, 48, 48, 48])).1.acc
        = ⟨1, 0, List.replicate 128 255⟩
      ∧ (run ⟨Phase.AwaitColon, 0, PageAcc.fresh, List.replicate 76 0, 0⟩
          (Input.rx 58 :: List.map Input.rx [48, 48, 48, 48, 48, 48, 48, 48, 48, 48]
            ++ Input.rx 58 :: List.map Input.rx [48, 48, 48, 48, 48, 48, 48, 49, 70, 70])).2
        = program_page 0 (List.replicate 128 255) ++ boot_app := by
  decide

/-- C20. Record framing stays inside the record buffer.  Let the characters
`chars` follow a `':'`, let their first two decode to a length `L ≤ 33`, and
let at least `2L + 10` of them arrive.  Then the loop that fills the record
stores exactly the first `2L + 10` characters at the start of the 76-byte
record and stops: the run continues with the processing of that record and
leaves the remaining characters to the loops that follow.  The checksum
verification, the type test and the data branch give on the buffer exactly
what they give on the `2L + 10` received characters alone, and there they
succeed; since a read at or beyond the end of its buffer gives `none`, they
read only indices below `2L + 10`: characters received for this record, never
beyond the struct. -/
theorem record_framing (s : State) (chars : List Nat) (L : Nat)
    (hp : s.phase = Phase.AwaitColon) (hr : s.record.length = 76)
    (hL : hex_to_uint8 (chars.getD 0 0) (chars.getD 1 0) = L) (hle : L ≤ 33)
    (hlen : 2 * L + 10 ≤ chars.length) :
    run s (Input.rx 58 :: chars.map Input.rx)
        = ((run (process_record ⟨Phase.ReadRecord, s.TCCR1B, s.acc,
              chars.take (2 * L + 10) ++ s.record.drop (2 * L + 10), 2 * L + 10⟩).1
            ((chars.drop (2 * L + 10)).map Input.rx)).1,
           (process_record ⟨Phase.ReadRecord, s.TCCR1B, s.acc,
              chars.take (2 * L + 10) ++ s.record.drop (2 * L + 10), 2 * L + 10⟩).2
            ++ (run (process_record ⟨Phase.ReadRecord, s.TCCR1B, s.acc,
                chars.take (2 * L + 10) ++ s.record.drop (2 * L + 10), 2 * L + 10⟩).1
              ((chars.drop (2 * L + 10)).map Input.rx)).2)
      ∧ (chars.take (2 * L + 10) ++ s.record.drop (2 * L + 10)).length = 76
      ∧ (∃ b, record_checksum_verify (chars.take (2 * L + 10)) = some b
          ∧ record_checksum_verify (chars.take (2 * L + 10) ++ s.record.drop (2 * L + 10))
            = some b)
      ∧ (∃ t, (chars.take (2 * L + 10))[7]? = some t
          ∧ (chars.take (2 * L + 10) ++ s.record.drop (2 * L + 10))[7]? = some t)
      ∧ ∀ acc : PageAcc, ∃ r, data_record acc (chars.take (2 * L + 10)) = some r
          ∧ data_record acc (chars.take (2 * L + 10) ++ s.record.drop (2 * L + 10)) = some r := by
  have hfl : (chars.take (2 * L + 10)).length = 2 * L + 10 := by
    rw [List.length_take]; omega
  have hfL : hex_to_uint8 ((chars.take (2 * L + 10)).getD 0 0)
      ((chars.take (2 * L + 10)).getD 1 0) = L := by
    rw [getD_take _ _ _ (by omega), getD_take _ _ _ (by omega), hL]
  have hmin : (chars.take (2 * L + 10)).length = min (2 * L + 10) 76 := by
    rw [hfl, min_def, if_pos (by omega)]
  refine ⟨?_, ?_, ?_, ?_, ?_⟩
  · have hrun := run_append s (Input.rx 58 :: (chars.take (2 * L + 10)).map Input.rx)
      ((chars.drop (2 * L + 10)).map Input.rx)
    have hsplit : Input.rx 58 :: chars.map Input.rx
        = (Input.rx 58 :: (chars.take (2 * L + 10)).map Input.rx)
            ++ (chars.drop (2 * L + 10)).map Input.rx := by
      rw [List.cons_append, ← List.map_append, List.take_append_drop]
    rw [hsplit, hrun, run_record s _ L hp hr hmin hfL, hfl]
  · rw [List.length_append, hfl, List.length_drop]
    omega
  · have h8 : hex_to_uint8_at (chars.take (2 * L + 10)) 0 = some L := by
      rw [hex_to_uint8_at_eq _ 0 (by omega), hfL]
    have hrl : (header_len / 2 + L) % 256 = 5 + L := by
      simp only [header_len]; omega
    have hv : record_checksum_verify (chars.take (2 * L + 10))
        = some ((decoded_bytes (chars.take (2 * L + 10)) (5 + L)).sum % 256 == 0) := by
      rw [record_checksum_verify, h8]
      simp only [hrl]
      rw [checksum_loop_eq _ (5 + L) (by omega)]
    refine ⟨_, hv, ?_⟩
    rw [record_checksum_verify, hex_to_uint8_at_append _ _ 0 (by omega), h8]
    simp only [hrl]
    rw [checksum_loop_append _ _ (5 + L) (by omega), checksum_loop_eq _ (5 + L) (by omega)]
  · refine ⟨(chars.take (2 * L + 10)).getD 7 0, getElem?_eq_getD _ 7 (by omega), ?_⟩
    rw [List.getElem?_append_left (by omega)]
    exact getElem?_eq_getD _ 7 (by omega)
  · intro acc
    have h8 : hex_to_uint8_at (chars.take (2 * L + 10)) 0 = some L := by
      rw [hex_to_uint8_at_eq _ 0 (by omega), hfL]
    obtain ⟨r, hrr⟩ := data_loop_some (chars.take (2 * L + 10))
      (hex_to_uint16 ((chars.take (2 * L + 10)).getD 2 0) ((chars.take (2 * L + 10)).getD 3 0)
        ((chars.take (2 * L + 10)).getD 4 0) ((chars.take (2 * L + 10)).getD 5 0))
      (activate_page acc
        (hex_to_uint16 ((chars.take (2 * L + 10)).getD 2 0) ((chars.take (2 * L + 10)).getD 3 0)
          ((chars.take (2 * L + 10)).getD 4 0) ((chars.take (2 * L + 10)).getD 5 0)))
      L (by omega)
    refine ⟨r, ?_, ?_⟩
    · rw [data_record, hex_to_uint16_at_eq _ 2 (by omega), h8]
      exact hrr
    · rw [data_record, hex_to_uint16_at_append _ _ 2 (by omega),
        hex_to_uint8_at_append _ _ 0 (by omega), hex_to_uint16_at_eq _ 2 (by omega), h8]
      simp only []
      rw [data_loop_append _ _ _ _ L (by omega)]
      exact hrr

/-- Witness for C20: a record of two data bytes at address `0x0080`, followed by
a line end and the next `':'`. -/
theorem record_framing_witness :
    (∃ b, record_checksum_verify
          (List.take (2 * 2 + 10)
            [48, 50, 48, 48, 56, 48, 48, 48, 65, 66, 67, 68, 48, 54, 13, 10, 58])
          = some b
        ∧ record_checksum_verify
            (List.take (2 * 2 + 10)
                [48, 50, 48, 48, 56, 48, 48, 48, 65, 66, 67, 68, 48, 54, 13, 10, 58]
              ++ (List.replicate 76 0).drop (2 * 2 + 10))
          = some b) :=
  (record_framing ⟨Phase.AwaitColon, 0, PageAcc.fresh, List.replicate 76 0, 0⟩
    [48, 50, 48, 48, 56, 48, 48, 48, 65, 66, 67, 68, 48, 54, 13, 10, 58] 2 rfl
    (List.length_replicate 76 0) (by decide) (by decide) (by decide)).2.2.1

end Bootloader
